import Mathlib

/-!
# Verification of the mlsgpu data-flow core

A shallow embedding, in Lean 4, of the parts of the mlsgpu surface
reconstruction pipeline that the specification's testable properties talk
about:

* the blob-index wire codec (`FastBlobSet::addBlob` and
  `FastBlobSet::MyBlobStream::refill` from `src/splat_set_impl.h`);
* splat-range coalescing (`SplatRange::append` from `src/bucket.cpp`);
* the Morton code (`SplatTree::makeCode` from `splat_tree.cpp`);
* splat streaming (`SequenceSet::MySplatStream::read`);
* the copy worker's progress accounting (`CopyGroupBase::Worker` from
  `src/workers.cpp`);
* the `DeviceWorkerGroup` `unallocated_` accounting;
* splat-tree host-side construction (`SplatTree::initialize`);
* range merging (`SplatSet::merge`);
* the bucketing recursion (`bucketRecurse` from `src/bucket.cpp`).

Machine integers are modelled as `Nat` / `Int` with explicit reductions
modulo `2 ^ w` where wrap-around matters.  Floating-point inputs are
abstracted: quantities whose exact values come from float arithmetic are
taken as parameters (for example the splat/cell intersection test of the
bucketer), so the theorems hold for every value those computations could
produce.
-/

namespace Mlsgpu

/-! ## Bit-manipulation helpers

Arithmetic facts about `Nat.lor` / shifts used to reason about the packed
32-bit blob records.  `orShift_eq_add` states that OR-ing a shifted value
onto a small value is plain addition, which is how `insertUnsigned` and
`insertSigned` in `splat_set_impl.h` use `|`.
-/

theorem or_mod_two (a b : ℕ) : (a ||| b) % 2 = if a % 2 = 1 ∨ b % 2 = 1 then 1 else 0 := by
  have h := Nat.or_mod_two_eq_one (a := a) (b := b)
  by_cases hc : a % 2 = 1 ∨ b % 2 = 1
  · simp [hc, h.mpr hc]
  · simp only [hc, if_false]
    rcases Nat.mod_two_eq_zero_or_one (a ||| b) with h2 | h2
    · exact h2
    · exact absurd (h.mp h2) hc

theorem orShift_eq_add (l : ℕ) : ∀ (b a : ℕ), a < 2 ^ l → (b <<< l) ||| a = b * 2 ^ l + a := by
  induction l with
  | zero =>
    intro b a ha
    interval_cases a
    simp [Nat.shiftLeft_eq]
  | succ l ih =>
    intro b a ha
    have hrepr : b <<< (l + 1) = (2 * b) <<< l := by
      simp only [Nat.shiftLeft_eq, pow_succ]
      ring
    rw [hrepr]
    have hdm : ((2 * b) <<< l ||| a)
        = 2 * (((2 * b) <<< l ||| a) / 2) + (((2 * b) <<< l ||| a) % 2) := by
      omega
    rw [hdm, Nat.or_div_two, or_mod_two]
    have hshl2 : ((2 * b) <<< l) / 2 = b <<< l := by
      simp only [Nat.shiftLeft_eq]
      have h2 : 2 * b * 2 ^ l = 2 * (b * 2 ^ l) := by ring
      rw [h2]
      omega
    have hmod : ((2 * b) <<< l) % 2 = 0 := by
      simp only [Nat.shiftLeft_eq]
      have h2 : 2 * b * 2 ^ l = 2 * (b * 2 ^ l) := by ring
      rw [h2]
      omega
    rw [hshl2, ih b (a / 2) (by omega), hmod]
    have hp : b * 2 ^ (l + 1) = 2 * (b * 2 ^ l) := by ring
    rw [hp]
    rcases Nat.mod_two_eq_zero_or_one a with h2 | h2 <;> simp [h2] <;> omega

theorem orMul_eq_add {l b a : ℕ} (ha : a < 2 ^ l) : (b * 2 ^ l) ||| a = b * 2 ^ l + a := by
  have := orShift_eq_add l b a ha
  rwa [Nat.shiftLeft_eq] at this

/-! ## C5: `SplatRange` and `append` (src/bucket.cpp lines 38-79)

`SplatRange` holds a `scan` id, a 32-bit `size` and a 64-bit `start`.
`append` mirrors `SplatRange::append`.  Sizes and indices are `Nat`s with
the 32-bit size bound made explicit where the source checks
`std::numeric_limits<size_type>::max()`.
-/

/-- Maximum value of `SplatRange::size_type` (`std::tr1::uint32_t`). -/
def sizeTypeMax : ℕ := 2 ^ 32 - 1

structure SplatRange where
  scan : ℕ
  size : ℕ
  start : ℕ
  deriving Repr, DecidableEq

/-- `SplatRange::append(scan, splat)`: returns the updated range and the
    `bool` result.  Translated line by line from `src/bucket.cpp:58-79`. -/
def SplatRange.append (r : SplatRange) (scan : ℕ) (splat : ℕ) : SplatRange × Bool :=
  if r.size = 0 then
    ({ scan := scan, size := 1, start := splat }, true)
  else if r.scan = scan ∧ splat ≥ r.start ∧ splat - r.start ≤ r.size then
    if splat - r.start = r.size then
      if r.size = sizeTypeMax then
        (r, false)  -- would overflow
      else
        ({ r with size := r.size + 1 }, true)
    else
      (r, true)
  else
    (r, false)

/-! ## C4: `SplatTree::makeCode` (splat_tree.cpp lines 224-239)

The source loop runs `while (x || y || z)`, shifting the three inputs right
by one bit per iteration; `code_type` is 32 bits wide and the
`MLSGPU_ASSERT(shift < digits)` after the loop bounds the loop at 32
iterations on any input within the function's contract.  We give the loop
32 iterations of fuel accordingly; `makeCodeGo_big_fuel` shows the result
does not depend on the fuel once it covers the inputs' bit widths.
-/

/-- One loop iteration of `SplatTree::makeCode`:
    `digit = (x & 1) + ((y & 1) << 1) + ((z & 1) << 2)` accumulated at the
    current shift, then all of `x`, `y`, `z` shifted right. -/
def makeCodeGo : ℕ → ℕ → ℕ → ℕ → ℕ
  | 0, _, _, _ => 0
  | fuel + 1, x, y, z =>
    if x = 0 ∧ y = 0 ∧ z = 0 then 0
    else
      ((x &&& 1) + ((y &&& 1) <<< 1) + ((z &&& 1) <<< 2))
        + (makeCodeGo fuel (x >>> 1) (y >>> 1) (z >>> 1)) <<< 3

/-- `SplatTree::makeCode(x, y, z)`. -/
def makeCode (x y z : ℕ) : ℕ := makeCodeGo 32 x y z

theorem makeCodeGo_big_fuel (f g : ℕ) :
    ∀ x y z : ℕ, x < 2 ^ f → y < 2 ^ f → z < 2 ^ f → f ≤ g →
      makeCodeGo g x y z = makeCodeGo f x y z := by
  induction f generalizing g with
  | zero =>
    intro x y z hx hy hz _
    have : x = 0 ∧ y = 0 ∧ z = 0 := by omega
    cases g with
    | zero => rfl
    | succ g => simp [makeCodeGo, this]
  | succ f ih =>
    intro x y z hx hy hz hfg
    cases g with
    | zero => omega
    | succ g =>
      simp only [makeCodeGo]
      by_cases h0 : x = 0 ∧ y = 0 ∧ z = 0
      · simp [h0]
      · simp only [h0, if_false]
        have hx' : x >>> 1 < 2 ^ f := by
          simp only [Nat.shiftRight_succ, Nat.shiftRight_zero]
          omega
        have hy' : y >>> 1 < 2 ^ f := by
          simp only [Nat.shiftRight_succ, Nat.shiftRight_zero]
          omega
        have hz' : z >>> 1 < 2 ^ f := by
          simp only [Nat.shiftRight_succ, Nat.shiftRight_zero]
          omega
        rw [ih g (x >>> 1) (y >>> 1) (z >>> 1) hx' hy' hz' (by omega)]

/-- The recurrence satisfied by `makeCode` on its 32-bit contract domain. -/
theorem makeCode_eq (x y z : ℕ) (hx : x < 2 ^ 31) (hy : y < 2 ^ 31) (hz : z < 2 ^ 31) :
    makeCode x y z =
      if x = 0 ∧ y = 0 ∧ z = 0 then 0
      else (x % 2 + 2 * (y % 2) + 4 * (z % 2)) + 8 * makeCode (x / 2) (y / 2) (z / 2) := by
  show makeCodeGo 32 x y z = _
  rw [makeCodeGo]
  by_cases h0 : x = 0 ∧ y = 0 ∧ z = 0
  · simp [h0]
  · simp only [h0, if_false]
    have h31 : makeCodeGo 31 (x >>> 1) (y >>> 1) (z >>> 1)
        = makeCodeGo 32 (x >>> 1) (y >>> 1) (z >>> 1) := by
      refine (makeCodeGo_big_fuel 31 32 _ _ _ ?_ ?_ ?_ (by omega)).symm <;>
        · simp only [Nat.shiftRight_succ, Nat.shiftRight_zero]
          omega
    rw [h31]
    show _ = _ + 8 * makeCodeGo 32 (x / 2) (y / 2) (z / 2)
    simp [Nat.shiftLeft_eq, Nat.shiftRight_succ, Nat.and_one_is_mod]
    ring

/-- Extracts every third bit of `c`, starting at bit `off`.  This is the
    mathematical inverse of the Morton interleaving; it is a proof artifact
    (the repository decodes codes positionally on the GPU). -/
def unInterleave (off : ℕ) (c : ℕ) : ℕ :=
  if h : c = 0 then 0
  else (c >>> off) % 2 + 2 * unInterleave off (c / 8)
  termination_by c
  decreasing_by exact Nat.div_lt_self (by omega) (by norm_num)

theorem unInterleave_zero (off : ℕ) : unInterleave off 0 = 0 := by
  rw [unInterleave]
  simp

theorem makeCodeGo_eq_zero :
    ∀ f x y z : ℕ, x < 2 ^ f → y < 2 ^ f → z < 2 ^ f →
      (makeCodeGo f x y z = 0 ↔ x = 0 ∧ y = 0 ∧ z = 0) := by
  intro f
  induction f with
  | zero =>
    intro x y z hx hy hz
    have hx0 : x = 0 := by omega
    have hy0 : y = 0 := by omega
    have hz0 : z = 0 := by omega
    subst hx0; subst hy0; subst hz0
    simp [makeCodeGo]
  | succ f ih =>
    intro x y z hx hy hz
    constructor
    · intro h0
      by_contra hne
      rw [makeCodeGo, if_neg hne] at h0
      have hrec := ih (x >>> 1) (y >>> 1) (z >>> 1)
        (by simp only [Nat.shiftRight_succ, Nat.shiftRight_zero]; omega)
        (by simp only [Nat.shiftRight_succ, Nat.shiftRight_zero]; omega)
        (by simp only [Nat.shiftRight_succ, Nat.shiftRight_zero]; omega)
      simp only [Nat.shiftLeft_eq, Nat.shiftRight_succ, Nat.shiftRight_zero,
        Nat.and_one_is_mod] at h0 hrec
      omega
    · rintro ⟨rfl, rfl, rfl⟩
      simp [makeCodeGo]

theorem makeCodeGo_lt :
    ∀ f x y z : ℕ, x < 2 ^ f → y < 2 ^ f → z < 2 ^ f →
      makeCodeGo f x y z < 2 ^ (3 * f) := by
  intro f
  induction f with
  | zero => intro x y z hx hy hz; simp [makeCodeGo]
  | succ f ih =>
    intro x y z hx hy hz
    rw [makeCodeGo]
    by_cases h0 : x = 0 ∧ y = 0 ∧ z = 0
    · simp [h0]
    · rw [if_neg h0]
      have hrec := ih (x >>> 1) (y >>> 1) (z >>> 1)
        (by simp only [Nat.shiftRight_succ, Nat.shiftRight_zero]; omega)
        (by simp only [Nat.shiftRight_succ, Nat.shiftRight_zero]; omega)
        (by simp only [Nat.shiftRight_succ, Nat.shiftRight_zero]; omega)
      have hpow : 2 ^ (3 * (f + 1)) = 8 * 2 ^ (3 * f) := by ring
      simp only [Nat.shiftLeft_eq, Nat.and_one_is_mod] at *
      omega

theorem unInterleave_makeCodeGo :
    ∀ f x y z : ℕ, x < 2 ^ f → y < 2 ^ f → z < 2 ^ f →
      unInterleave 0 (makeCodeGo f x y z) = x ∧
      unInterleave 1 (makeCodeGo f x y z) = y ∧
      unInterleave 2 (makeCodeGo f x y z) = z := by
  intro f
  induction f with
  | zero =>
    intro x y z hx hy hz
    have hx0 : x = 0 := by omega
    have hy0 : y = 0 := by omega
    have hz0 : z = 0 := by omega
    subst hx0; subst hy0; subst hz0
    simp [makeCodeGo, unInterleave_zero]
  | succ f ih =>
    intro x y z hx hy hz
    by_cases h0 : x = 0 ∧ y = 0 ∧ z = 0
    · obtain ⟨rfl, rfl, rfl⟩ := h0
      simp [makeCodeGo, unInterleave_zero]
    · have hG0 : makeCodeGo (f + 1) x y z ≠ 0 := fun h =>
        h0 ((makeCodeGo_eq_zero (f + 1) x y z hx hy hz).mp h)
      have hxb : x >>> 1 < 2 ^ f := by
        simp only [Nat.shiftRight_succ, Nat.shiftRight_zero]; omega
      have hyb : y >>> 1 < 2 ^ f := by
        simp only [Nat.shiftRight_succ, Nat.shiftRight_zero]; omega
      have hzb : z >>> 1 < 2 ^ f := by
        simp only [Nat.shiftRight_succ, Nat.shiftRight_zero]; omega
      have hrec := ih (x >>> 1) (y >>> 1) (z >>> 1) hxb hyb hzb
      have hGdef : makeCodeGo (f + 1) x y z
          = (x % 2 + 2 * (y % 2) + 4 * (z % 2))
            + 8 * makeCodeGo f (x >>> 1) (y >>> 1) (z >>> 1) := by
        rw [makeCodeGo, if_neg h0]
        simp only [Nat.shiftLeft_eq, Nat.and_one_is_mod]
        ring
      set G := makeCodeGo (f + 1) x y z with hGset
      set R := makeCodeGo f (x >>> 1) (y >>> 1) (z >>> 1) with hRset
      have hGdiv : G / 8 = R := by omega
      refine ⟨?_, ?_, ?_⟩
      · rw [unInterleave, dif_neg hG0, hGdiv, hrec.1]
        simp only [Nat.shiftRight_zero, Nat.shiftRight_succ] at *
        omega
      · rw [unInterleave, dif_neg hG0, hGdiv, hrec.2.1]
        simp only [Nat.shiftRight_zero, Nat.shiftRight_succ] at *
        omega
      · rw [unInterleave, dif_neg hG0, hGdiv, hrec.2.2]
        simp only [Nat.shiftRight_zero, Nat.shiftRight_succ] at *
        omega

theorem unInterleave_lt :
    ∀ f c : ℕ, c < 2 ^ (3 * f) → ∀ off : ℕ, unInterleave off c < 2 ^ f := by
  intro f
  induction f with
  | zero =>
    intro c hc off
    have : c = 0 := by omega
    subst this
    simp [unInterleave_zero]
  | succ f ih =>
    intro c hc off
    by_cases h0 : c = 0
    · subst h0; simp [unInterleave_zero]
    · rw [unInterleave, dif_neg h0]
      have hrec := ih (c / 8) (by
        have hpow : 2 ^ (3 * (f + 1)) = 8 * 2 ^ (3 * f) := by ring
        omega) off
      have : (c >>> off) % 2 < 2 := Nat.mod_lt _ (by norm_num)
      have hpow : 2 ^ (f + 1) = 2 * 2 ^ f := by ring
      omega

theorem makeCodeGo_unInterleave :
    ∀ f c : ℕ, c < 2 ^ (3 * f) →
      makeCodeGo f (unInterleave 0 c) (unInterleave 1 c) (unInterleave 2 c) = c := by
  intro f
  induction f with
  | zero =>
    intro c hc
    have : c = 0 := by omega
    subst this
    simp [makeCodeGo, unInterleave_zero]
  | succ f ih =>
    intro c hc
    by_cases h0 : c = 0
    · subst h0
      simp [makeCodeGo, unInterleave_zero]
    · have hc8 : c / 8 < 2 ^ (3 * f) := by
        have hpow : 2 ^ (3 * (f + 1)) = 8 * 2 ^ (3 * f) := by ring
        omega
      have hrec := ih (c / 8) hc8
      have hX : unInterleave 0 c = c % 2 + 2 * unInterleave 0 (c / 8) := by
        rw [unInterleave, dif_neg h0]
        simp [Nat.shiftRight_zero]
      have hY : unInterleave 1 c = c / 2 % 2 + 2 * unInterleave 1 (c / 8) := by
        rw [unInterleave, dif_neg h0]
        simp [Nat.shiftRight_succ, Nat.shiftRight_zero]
      have hZ : unInterleave 2 c = c / 4 % 2 + 2 * unInterleave 2 (c / 8) := by
        rw [unInterleave, dif_neg h0]
        norm_num [Nat.shiftRight_succ, Nat.shiftRight_zero, Nat.div_div_eq_div_mul]
      have hnz : ¬(unInterleave 0 c = 0 ∧ unInterleave 1 c = 0 ∧ unInterleave 2 c = 0) := by
        rintro ⟨hx0, hy0, hz0⟩
        rw [hX] at hx0
        rw [hY] at hy0
        rw [hZ] at hz0
        have h8 : c / 8 = 0 := by
          have := hrec
          have hxz : unInterleave 0 (c / 8) = 0 := by omega
          have hyz : unInterleave 1 (c / 8) = 0 := by omega
          have hzz : unInterleave 2 (c / 8) = 0 := by omega
          rw [hxz, hyz, hzz] at this
          rcases f with _ | f
          · simpa [makeCodeGo] using this.symm
          · simpa [makeCodeGo] using this.symm
        omega
      rw [makeCodeGo, if_neg hnz]
      have hXs : unInterleave 0 c >>> 1 = unInterleave 0 (c / 8) := by
        simp only [Nat.shiftRight_succ, Nat.shiftRight_zero]
        omega
      have hYs : unInterleave 1 c >>> 1 = unInterleave 1 (c / 8) := by
        simp only [Nat.shiftRight_succ, Nat.shiftRight_zero]
        omega
      have hZs : unInterleave 2 c >>> 1 = unInterleave 2 (c / 8) := by
        simp only [Nat.shiftRight_succ, Nat.shiftRight_zero]
        omega
      rw [hXs, hYs, hZs, hrec]
      simp only [Nat.shiftLeft_eq, Nat.and_one_is_mod]
      omega

/-- Bit `3*i` of the code is bit `i` of `x`, and similarly for `y`, `z` at
    offsets 1 and 2 within each 3-bit group. -/
theorem makeCodeGo_testBit :
    ∀ f x y z : ℕ, x < 2 ^ f → y < 2 ^ f → z < 2 ^ f → ∀ i : ℕ,
      makeCodeGo f x y z / 2 ^ (3 * i) % 2 = x / 2 ^ i % 2 ∧
      makeCodeGo f x y z / 2 ^ (3 * i + 1) % 2 = y / 2 ^ i % 2 ∧
      makeCodeGo f x y z / 2 ^ (3 * i + 2) % 2 = z / 2 ^ i % 2 := by
  intro f
  induction f with
  | zero =>
    intro x y z hx hy hz i
    have hx0 : x = 0 := by omega
    have hy0 : y = 0 := by omega
    have hz0 : z = 0 := by omega
    subst hx0; subst hy0; subst hz0
    simp [makeCodeGo]
  | succ f ih =>
    intro x y z hx hy hz i
    by_cases h0 : x = 0 ∧ y = 0 ∧ z = 0
    · obtain ⟨rfl, rfl, rfl⟩ := h0
      simp [makeCodeGo]
    · have hGdef : makeCodeGo (f + 1) x y z
          = (x % 2 + 2 * (y % 2) + 4 * (z % 2))
            + 8 * makeCodeGo f (x >>> 1) (y >>> 1) (z >>> 1) := by
        rw [makeCodeGo, if_neg h0]
        simp only [Nat.shiftLeft_eq, Nat.and_one_is_mod]
        ring
      have hxb : x >>> 1 < 2 ^ f := by
        simp only [Nat.shiftRight_succ, Nat.shiftRight_zero]; omega
      have hyb : y >>> 1 < 2 ^ f := by
        simp only [Nat.shiftRight_succ, Nat.shiftRight_zero]; omega
      have hzb : z >>> 1 < 2 ^ f := by
        simp only [Nat.shiftRight_succ, Nat.shiftRight_zero]; omega
      cases i with
      | zero =>
        simp only [Nat.mul_zero, pow_zero, Nat.div_one, pow_one]
        refine ⟨by omega, ?_, ?_⟩
        · have : makeCodeGo (f + 1) x y z / 2
              = (x % 2 + 2 * (y % 2) + 4 * (z % 2)) / 2
                + 4 * makeCodeGo f (x >>> 1) (y >>> 1) (z >>> 1) := by omega
          rw [pow_one, this]
          omega
        · have : makeCodeGo (f + 1) x y z / 4
              = (x % 2 + 2 * (y % 2) + 4 * (z % 2)) / 4
                + 2 * makeCodeGo f (x >>> 1) (y >>> 1) (z >>> 1) := by omega
          rw [(by norm_num : (2 : ℕ) ^ 2 = 4), this]
          omega
      | succ i =>
        have hrec := ih (x >>> 1) (y >>> 1) (z >>> 1) hxb hyb hzb i
        have hdiv8 : makeCodeGo (f + 1) x y z / 8
            = makeCodeGo f (x >>> 1) (y >>> 1) (z >>> 1) := by omega
        have hsplit : ∀ k : ℕ, makeCodeGo (f + 1) x y z / 2 ^ (k + 3)
            = makeCodeGo f (x >>> 1) (y >>> 1) (z >>> 1) / 2 ^ k := by
          intro k
          rw [pow_add, (by norm_num : (2 : ℕ) ^ 3 = 8), Nat.mul_comm,
            ← Nat.div_div_eq_div_mul, hdiv8]
        have hxdiv : ∀ w : ℕ, w / 2 ^ (i + 1) = w >>> 1 / 2 ^ i := by
          intro w
          simp only [Nat.shiftRight_succ, Nat.shiftRight_zero]
          rw [Nat.div_div_eq_div_mul]
          congr 1
          ring
        refine ⟨?_, ?_, ?_⟩
        · have h1 : 3 * (i + 1) = 3 * i + 3 := by ring
          rw [h1, hsplit (3 * i), hxdiv x]
          exact (hrec).1
        · have h1 : 3 * (i + 1) + 1 = (3 * i + 1) + 3 := by ring
          rw [h1, hsplit (3 * i + 1), hxdiv y]
          exact (hrec).2.1
        · have h1 : 3 * (i + 1) + 2 = (3 * i + 2) + 3 := by ring
          rw [h1, hsplit (3 * i + 2), hxdiv z]
          exact (hrec).2.2

/-- C4: `makeCode(x,y,z)` is the bit-interleaving map (bit `i` of `x`
    lands at bit `3i`, of `y` at `3i+1`, of `z` at `3i+2`) and is a
    bijection from `[0, 2^L)^3` onto `[0, 2^(3L))` for every `L` with
    `3L` less than the 32-bit width of `code_type`; in particular
    `makeCode(2,5,3) = 174`, `makeCode(7,7,7) = 511`, `makeCode(0,0,0) = 0`. -/
theorem makeCode_bijection (L : ℕ) (hL : 3 * L < 32) :
    (∀ x y z : ℕ, x < 2 ^ L → y < 2 ^ L → z < 2 ^ L →
      makeCode x y z < 2 ^ (3 * L) ∧
      (∀ i : ℕ, makeCode x y z / 2 ^ (3 * i) % 2 = x / 2 ^ i % 2 ∧
                makeCode x y z / 2 ^ (3 * i + 1) % 2 = y / 2 ^ i % 2 ∧
                makeCode x y z / 2 ^ (3 * i + 2) % 2 = z / 2 ^ i % 2)) ∧
    (∀ x y z x' y' z' : ℕ, x < 2 ^ L → y < 2 ^ L → z < 2 ^ L →
      x' < 2 ^ L → y' < 2 ^ L → z' < 2 ^ L →
      makeCode x y z = makeCode x' y' z' → x = x' ∧ y = y' ∧ z = z') ∧
    (∀ c : ℕ, c < 2 ^ (3 * L) →
      ∃ x y z : ℕ, x < 2 ^ L ∧ y < 2 ^ L ∧ z < 2 ^ L ∧ makeCode x y z = c) ∧
    makeCode 2 5 3 = 174 ∧ makeCode 7 7 7 = 511 ∧ makeCode 0 0 0 = 0 := by
  have hL32 : L ≤ 32 := by omega
  have htrans : ∀ x y z : ℕ, x < 2 ^ L → y < 2 ^ L → z < 2 ^ L →
      makeCode x y z = makeCodeGo L x y z := fun x y z hx hy hz =>
    makeCodeGo_big_fuel L 32 x y z hx hy hz hL32
  refine ⟨?_, ?_, ?_, rfl, rfl, rfl⟩
  · intro x y z hx hy hz
    rw [htrans x y z hx hy hz]
    exact ⟨makeCodeGo_lt L x y z hx hy hz, makeCodeGo_testBit L x y z hx hy hz⟩
  · intro x y z x' y' z' hx hy hz hx' hy' hz' heq
    rw [htrans x y z hx hy hz, htrans x' y' z' hx' hy' hz'] at heq
    obtain ⟨e0, e1, e2⟩ := unInterleave_makeCodeGo L x y z hx hy hz
    obtain ⟨e0', e1', e2'⟩ := unInterleave_makeCodeGo L x' y' z' hx' hy' hz'
    refine ⟨?_, ?_, ?_⟩
    · have h := congrArg (unInterleave 0) heq
      rwa [e0, e0'] at h
    · have h := congrArg (unInterleave 1) heq
      rwa [e1, e1'] at h
    · have h := congrArg (unInterleave 2) heq
      rwa [e2, e2'] at h
  · intro c hc
    refine ⟨unInterleave 0 c, unInterleave 1 c, unInterleave 2 c,
      unInterleave_lt L c hc 0, unInterleave_lt L c hc 1, unInterleave_lt L c hc 2, ?_⟩
    rw [htrans _ _ _ (unInterleave_lt L c hc 0) (unInterleave_lt L c hc 1)
      (unInterleave_lt L c hc 2)]
    exact makeCodeGo_unInterleave L c hc

/-- Witness for C4, instantiated at `L = 3`. -/
theorem makeCode_bijection_witness : makeCode 2 5 3 = 174 :=
  (makeCode_bijection 3 (by norm_num)).2.2.2.1

/-- C5: `SplatRange::append(scan, splat)` returns `true` iff the range is
    empty, or the scan matches and `splat` is contiguous with
    `start + size` without overflowing the 32-bit size; on success at
    exactly `start + size` the size grows by one; in every other case the
    range is unchanged, and `false` is returned exactly in the enumerated
    failure cases. -/
theorem splatRange_append_spec (r : SplatRange) (scan splat : ℕ)
    (hsize : r.size ≤ sizeTypeMax) :
    ((r.append scan splat).2 = true ↔
      r.size = 0 ∨ (r.scan = scan ∧ r.start ≤ splat ∧ splat ≤ r.start + r.size ∧
        ¬(splat = r.start + r.size ∧ r.size = sizeTypeMax))) ∧
    (r.size = 0 →
      (r.append scan splat).1 = { scan := scan, size := 1, start := splat }) ∧
    (r.size ≠ 0 → splat = r.start + r.size → r.scan = scan → r.size ≠ sizeTypeMax →
      (r.append scan splat).1 = { r with size := r.size + 1 }) ∧
    (r.size ≠ 0 → r.scan = scan → r.start ≤ splat → splat < r.start + r.size →
      (r.append scan splat).1 = r) ∧
    ((r.append scan splat).2 = false → (r.append scan splat).1 = r) := by
  obtain ⟨rscan, rsize, rstart⟩ := r
  simp only [SplatRange.append]
  by_cases h0 : rsize = 0
  · simp [h0]
  · simp only [h0, if_false]
    by_cases h1 : rscan = scan ∧ splat ≥ rstart ∧ splat - rstart ≤ rsize
    · simp only [h1, if_true]
      by_cases h2 : splat - rstart = rsize
      · simp only [h2, if_true]
        by_cases h3 : rsize = sizeTypeMax
        · simp only [h3, if_true]
          refine ⟨by simp +decide; omega, by simp, by intro _ _ _ h; omega, ?_, by simp⟩
          intro _ _ _ hlt
          omega
        · simp only [h3, if_false]
          refine ⟨by simp +decide; omega, by simp, by intros; rfl, ?_, by simp⟩
          intro _ _ _ hlt
          omega
      · simp only [h2, if_false]
        refine ⟨by simp +decide; omega, by simp, by intro _ heq _ _; omega,
          by intros; rfl, by simp⟩
    · simp only [h1, if_false]
      refine ⟨by simp +decide; omega, by simp, ?_, ?_, by simp⟩
      · intro _ heq hscan hover
        exfalso
        exact h1 ⟨hscan, by omega, by omega⟩
      · intro _ hscan hge hlt
        exfalso
        exact h1 ⟨hscan, by omega, by omega⟩

/-- Witness for C5: a one-element range `[5, 6)` in scan 0 is extended by
    splat 6. -/
theorem splatRange_append_spec_witness :
    ((SplatRange.append ⟨0, 1, 5⟩ 0 6).2 = true ↔
      (1 : ℕ) = 0 ∨ ((0 : ℕ) = 0 ∧ (5 : ℕ) ≤ 6 ∧ (6 : ℕ) ≤ 5 + 1 ∧
        ¬((6 : ℕ) = 5 + 1 ∧ (1 : ℕ) = sizeTypeMax))) ∧
    ((1 : ℕ) = 0 →
      (SplatRange.append ⟨0, 1, 5⟩ 0 6).1 = { scan := 0, size := 1, start := 6 }) ∧
    ((1 : ℕ) ≠ 0 → (6 : ℕ) = 5 + 1 → (0 : ℕ) = 0 → (1 : ℕ) ≠ sizeTypeMax →
      (SplatRange.append ⟨0, 1, 5⟩ 0 6).1 = ⟨0, 2, 5⟩) ∧
    ((1 : ℕ) ≠ 0 → (0 : ℕ) = 0 → (5 : ℕ) ≤ 6 → (6 : ℕ) < 5 + 1 →
      (SplatRange.append ⟨0, 1, 5⟩ 0 6).1 = ⟨0, 1, 5⟩) ∧
    ((SplatRange.append ⟨0, 1, 5⟩ 0 6).2 = false →
      (SplatRange.append ⟨0, 1, 5⟩ 0 6).1 = ⟨0, 1, 5⟩) :=
  splatRange_append_spec ⟨0, 1, 5⟩ 0 6 (by decide)

/-! ## C1, C2: the blob wire codec (src/splat_set_impl.h)

`BlobData` words are 32-bit; we model them as `Nat`s kept below `2 ^ 32`
by construction.  Coordinates are `Grid::difference_type` (32-bit signed),
modelled as `ℤ`; splat ids are `uint64`, modelled as `Nat` with explicit
`% 2 ^ 64` where the C++ arithmetic wraps.
-/

/-- `SplatSet::BlobInfo`: a run `[firstSplat, lastSplat)` of consecutive
    splats sharing the same inclusive bucket box `[lower i, upper i]`. -/
structure BlobInfo where
  firstSplat : ℕ
  lastSplat : ℕ
  lower : Fin 3 → ℤ
  upper : Fin 3 → ℤ

instance : DecidableEq BlobInfo := fun a b =>
  decidable_of_iff
    (a.firstSplat = b.firstSplat ∧ a.lastSplat = b.lastSplat ∧
      (∀ i, a.lower i = b.lower i) ∧ ∀ i, a.upper i = b.upper i) (by
    obtain ⟨af, al, alo, ahi⟩ := a
    obtain ⟨bf, bl, blo, bhi⟩ := b
    simp only [BlobInfo.mk.injEq]
    constructor
    · rintro ⟨h1, h2, h3, h4⟩
      exact ⟨h1, h2, funext h3, funext h4⟩
    · rintro ⟨h1, h2, h3, h4⟩
      exact ⟨h1, h2, fun i => congrFun h3 i, fun i => congrFun h4 i⟩)

/-- Wrapping `uint64` subtraction (both operands below `2 ^ 64`), as in
    `curBlob.lastSplat - curBlob.firstSplat` in `addBlob`. -/
def sub64 (a b : ℕ) : ℕ := (a + 2 ^ 64 - b) % 2 ^ 64

/-- C++ `static_cast<std::tr1::uint32_t>` applied to a signed value. -/
def toUInt32 (x : ℤ) : ℕ := (x % 2 ^ 32).toNat

/-- C++ `static_cast<std::tr1::int32_t>` applied to an unsigned 32-bit
    value (two's complement reinterpretation). -/
def toInt32 (u : ℕ) : ℤ :=
  if u % 2 ^ 32 < 2 ^ 31 then ((u % 2 ^ 32 : ℕ) : ℤ) else (u % 2 ^ 32 : ℕ) - 2 ^ 32

/-- `extractUnsigned(value, lbit, hbit)` (src/splat_set_impl.h:293). -/
def extractUnsigned (value : ℕ) (lbit hbit : ℕ) : ℕ :=
  (value >>> lbit) &&& ((1 <<< (hbit - lbit)) - 1)

/-- `extractSigned(value, lbit, hbit)` (src/splat_set_impl.h:302):
    the unsigned field, sign-extended from `hbit - lbit` bits. -/
def extractSigned (value : ℕ) (lbit hbit : ℕ) : ℤ :=
  let bits := hbit - lbit
  let ans := extractUnsigned value lbit hbit
  if ans &&& (1 <<< (bits - 1)) ≠ 0 then (ans : ℤ) - 2 ^ bits else (ans : ℤ)

/-- `insertUnsigned(payload, value, lbit, hbit)` (src/splat_set_impl.h:311).
    The C++ asserts `value < 2 ^ (hbit - lbit)`; `hbit` is otherwise
    unused. -/
def insertUnsigned (payload value : ℕ) (lbit : ℕ) (hbit : ℕ) : ℕ :=
  payload ||| (value <<< lbit)

/-- `insertSigned(payload, value, lbit, hbit)` (src/splat_set_impl.h:320):
    a negative value is biased by `2 ^ (hbit - lbit)` before insertion. -/
def insertSigned (payload : ℕ) (value : ℤ) (lbit hbit : ℕ) : ℕ :=
  let v : ℤ := if value < 0 then value + 2 ^ (hbit - lbit) else value
  payload ||| (v.toNat <<< lbit)

/-- The record `FastBlobSet::addBlob` (src/splat_set_impl.h:590-635)
    appends for `curBlob`, given whether `blobData` already holds a record
    (`!blobData.empty()`) and the previously appended blob.  One word for
    a differential record, ten words for a full record. -/
def addBlobRecord (nonempty : Bool) (prevBlob curBlob : BlobInfo) : List ℕ :=
  if nonempty = true ∧ prevBlob.lastSplat = curBlob.firstSplat ∧
      sub64 curBlob.lastSplat curBlob.firstSplat < 2 ^ 19 ∧
      ∀ i : Fin 3, ¬(curBlob.upper i - curBlob.lower i > 1 ∨
        curBlob.lower i < prevBlob.upper i - 4 ∨
        curBlob.lower i > prevBlob.upper i + 3) then
    let payload0 : ℕ := 0 ||| 0x80000000
    let payload1 := insertSigned payload0 (curBlob.lower 0 - prevBlob.upper 0) 0 3
    let payload2 := insertUnsigned payload1 (toUInt32 (curBlob.upper 0 - curBlob.lower 0)) 3 4
    let payload3 := insertSigned payload2 (curBlob.lower 1 - prevBlob.upper 1) 4 7
    let payload4 := insertUnsigned payload3 (toUInt32 (curBlob.upper 1 - curBlob.lower 1)) 7 8
    let payload5 := insertSigned payload4 (curBlob.lower 2 - prevBlob.upper 2) 8 11
    let payload6 := insertUnsigned payload5 (toUInt32 (curBlob.upper 2 - curBlob.lower 2)) 11 12
    let payload7 := insertUnsigned payload6 (sub64 curBlob.lastSplat curBlob.firstSplat) 12 31
    [payload7]
  else
    [(curBlob.firstSplat >>> 32) % 2 ^ 32,
     curBlob.firstSplat &&& 0xFFFFFFFF,
     (curBlob.lastSplat >>> 32) % 2 ^ 32,
     curBlob.lastSplat &&& 0xFFFFFFFF,
     toUInt32 (curBlob.lower 0), toUInt32 (curBlob.upper 0),
     toUInt32 (curBlob.lower 1), toUInt32 (curBlob.upper 1),
     toUInt32 (curBlob.lower 2), toUInt32 (curBlob.upper 2)]

/-- `FastBlobSet::addBlob(blobData, prevBlob, curBlob)`: pushes the
    record's words onto `blobData`. -/
def addBlob (blobData : List ℕ) (prevBlob curBlob : BlobInfo) : List ℕ :=
  blobData ++ addBlobRecord (!blobData.isEmpty) prevBlob curBlob

/-- The blob sequence written by the `computeBlobsRange` loop
    (src/splat_set_impl.h:693-723): each finished blob is passed to
    `addBlob` with the previously written blob as `prevBlob`. -/
def writeBlobs (blobData : List ℕ) (prevBlob : BlobInfo) : List BlobInfo → List ℕ
  | [] => blobData
  | b :: bs => writeBlobs (addBlob blobData prevBlob b) b bs

/-- One record of `FastBlobSet::MyBlobStream::refill`
    (src/splat_set_impl.h:363-394): reads one `uint32`; bit 31 set marks a
    differential record, reconstructed against the previous decoded blob
    `cur`; otherwise nine further words complete a full record.  Returns
    the decoded blob and the remaining words (`none` on a truncated
    stream). -/
def readBlobRecord (cur : BlobInfo) (words : List ℕ) : Option (BlobInfo × List ℕ) :=
  match words with
  | [] => none
  | data :: rest =>
    if data &&& 0x80000000 ≠ 0 then
      -- differential record
      let lower : Fin 3 → ℤ := fun i =>
        cur.upper i + extractSigned data (i.val * 4) (i.val * 4 + 3)
      let upper : Fin 3 → ℤ := fun i =>
        lower i + extractUnsigned data (i.val * 4 + 3) (i.val * 4 + 4)
      let firstSplat := cur.lastSplat
      let lastSplat := (firstSplat + extractUnsigned data 12 31) % 2 ^ 64
      some ({ firstSplat := firstSplat, lastSplat := lastSplat,
              lower := lower, upper := upper }, rest)
    else
      -- full record: buffer[0..8] follow the tag word
      match rest with
      | b0 :: b1 :: b2 :: b3 :: b4 :: b5 :: b6 :: b7 :: b8 :: rest' =>
        some ({ firstSplat := (data <<< 32) ||| b0,
                lastSplat := (b1 <<< 32) ||| b2,
                lower := ![toInt32 b3, toInt32 b5, toInt32 b7],
                upper := ![toInt32 b4, toInt32 b6, toInt32 b8] }, rest')
      | _ => none

/-- Decode `n` consecutive records, threading the decoder state exactly as
    repeated calls to `refill` do.  Returns the decoded blobs and the
    remaining words. -/
def readBlobs : ℕ → BlobInfo → List ℕ → Option (List BlobInfo × List ℕ)
  | 0, _, words => some ([], words)
  | n + 1, cur, words =>
    match readBlobRecord cur words with
    | none => none
    | some (b, rest) =>
      match readBlobs n b rest with
      | none => none
      | some (bs, rest') => some (b :: bs, rest')

/-- Well-formedness of a `BlobInfo` as produced by `computeBlobsRange`:
    the splat run is non-trivially ordered, splat ids fit their 64-bit
    type with bit 63 clear (ids are `(fileId << scanIdShift) | index` and
    never reach `2 ^ 63`; the wire format relies on this because bit 31 of
    the stored high word of `firstSplat` doubles as the record tag), and
    the box coordinates are genuine `int32` values with `lower ≤ upper`
    (boxes from `splatToBuckets` are inclusive and non-empty). -/
def WFBlob (b : BlobInfo) : Prop :=
  b.firstSplat ≤ b.lastSplat ∧ b.lastSplat < 2 ^ 63 ∧
  ∀ i : Fin 3, b.lower i ≤ b.upper i ∧
    -(2 ^ 31) ≤ b.lower i ∧ b.upper i < 2 ^ 31

theorem toUInt32_lt (x : ℤ) : toUInt32 x < 2 ^ 32 := by
  unfold toUInt32
  omega

theorem toInt32_toUInt32 {x : ℤ} (h1 : -(2 ^ 31) ≤ x) (h2 : x < 2 ^ 31) :
    toInt32 (toUInt32 x) = x := by
  unfold toInt32 toUInt32
  omega

theorem toUInt32_of_small {x : ℤ} (h1 : 0 ≤ x) (h2 : x < 2 ^ 32) :
    toUInt32 x = x.toNat := by
  unfold toUInt32
  omega

theorem extractUnsigned_eq_div_mod (value l h : ℕ) :
    extractUnsigned value l h = value / 2 ^ l % 2 ^ (h - l) := by
  unfold extractUnsigned
  rw [Nat.shiftRight_eq_div_pow]
  have h1 : (1 <<< (h - l)) - 1 = 2 ^ (h - l) - 1 := by rw [Nat.shiftLeft_eq, one_mul]
  rw [h1, Nat.and_pow_two_sub_one_eq_mod]

theorem and_four_ne_zero {a : ℕ} (h : a < 8) : (a &&& (1 <<< 2) ≠ 0) ↔ 4 ≤ a := by
  interval_cases a <;> decide

/-- Bit 31 of a word below `2 ^ 31` is clear. -/
theorem tag_clear {w : ℕ} (h : w < 2 ^ 31) : w &&& 0x80000000 = 0 := by
  rw [(by norm_num : (0x80000000 : ℕ) = 2 ^ 31), Nat.and_two_pow,
    Nat.testBit_lt_two_pow h]
  rfl

/-- Bit 31 of `2 ^ 31 + low` is set when `low < 2 ^ 31`. -/
theorem tag_set {low : ℕ} (h : low < 2 ^ 31) : (2 ^ 31 + low) &&& 0x80000000 ≠ 0 := by
  rw [(by norm_num : (0x80000000 : ℕ) = 2 ^ 31), Nat.and_two_pow]
  have hbit : (2 ^ 31 + low).testBit 31 = true := by
    rw [Nat.testBit_to_div_mod]
    simp only [decide_eq_true_eq]
    omega
  rw [hbit]
  norm_num

/-- OR-ing a field shifted above the `low` bits of `2 ^ 31 + low` is plain
    addition: the arithmetic content of `insertUnsigned`/`insertSigned`. -/
theorem or_field (l low v : ℕ) (hl : l ≤ 31) (hlow : low < 2 ^ l)
    (hhigh : v * 2 ^ l < 2 ^ 31) :
    (2 ^ 31 + low) ||| (v <<< l) = 2 ^ 31 + (v * 2 ^ l + low) := by
  have hsplit : (2 : ℕ) ^ 31 = 2 ^ l * 2 ^ (31 - l) := by
    rw [← pow_add]
    congr 1
    omega
  have hv : v < 2 ^ (31 - l) := by
    have h := hhigh
    rw [hsplit, mul_comm ((2 : ℕ) ^ l) ((2 : ℕ) ^ (31 - l))] at h
    exact lt_of_mul_lt_mul_right h (Nat.zero_le _)
  have hsum : v * 2 ^ l + low < 2 ^ 31 := by
    have h1 : v + 1 ≤ 2 ^ (31 - l) := hv
    have h2 : (v + 1) * 2 ^ l ≤ 2 ^ (31 - l) * 2 ^ l := Nat.mul_le_mul_right _ h1
    have h3 : (v + 1) * 2 ^ l = v * 2 ^ l + 2 ^ l := by ring
    rw [h3] at h2
    rw [hsplit, mul_comm ((2 : ℕ) ^ l) ((2 : ℕ) ^ (31 - l))]
    omega
  have hlow31 : low < 2 ^ 31 :=
    lt_of_lt_of_le hlow (Nat.pow_le_pow_right (by norm_num) hl)
  have e1 : (2 : ℕ) ^ 31 + low = (1 * 2 ^ 31) ||| low := by
    rw [orMul_eq_add hlow31]
    ring
  rw [e1, Nat.lor_assoc, Nat.lor_comm low, orShift_eq_add l v low hlow,
    orMul_eq_add hsum]
  ring

/-- Closed form of the differential payload built by `addBlob`:
    tag bit, per-axis `Δlower` (3 bits) and size (1 bit) fields, and the
    19-bit splat count. -/
theorem payload_eq (e0 e1 e2 s0 s1 s2 c : ℕ)
    (h0 : e0 < 8) (h1 : e1 < 8) (h2 : e2 < 8)
    (hs0 : s0 < 2) (hs1 : s1 < 2) (hs2 : s2 < 2) (hc : c < 2 ^ 19) :
    (((((((0x80000000 ||| (e0 <<< 0)) ||| (s0 <<< 3)) ||| (e1 <<< 4)) ||| (s1 <<< 7))
        ||| (e2 <<< 8)) ||| (s2 <<< 11)) ||| (c <<< 12))
      = 2 ^ 31 + (c * 2 ^ 12 + (s2 * 2 ^ 11 + (e2 * 2 ^ 8 + (s1 * 2 ^ 7
          + (e1 * 2 ^ 4 + (s0 * 2 ^ 3 + (e0 * 2 ^ 0 + 0))))))) := by
  rw [(by norm_num : (0x80000000 : ℕ) = 2 ^ 31 + 0)]
  rw [or_field 0 0 e0 (by norm_num) (by norm_num) (by omega)]
  rw [or_field 3 (e0 * 2 ^ 0 + 0) s0 (by norm_num) (by omega) (by omega)]
  rw [or_field 4 (s0 * 2 ^ 3 + (e0 * 2 ^ 0 + 0)) e1 (by norm_num) (by omega) (by omega)]
  rw [or_field 7 (e1 * 2 ^ 4 + (s0 * 2 ^ 3 + (e0 * 2 ^ 0 + 0))) s1
    (by norm_num) (by omega) (by omega)]
  rw [or_field 8 (s1 * 2 ^ 7 + (e1 * 2 ^ 4 + (s0 * 2 ^ 3 + (e0 * 2 ^ 0 + 0)))) e2
    (by norm_num) (by omega) (by omega)]
  rw [or_field 11 (e2 * 2 ^ 8 + (s1 * 2 ^ 7 + (e1 * 2 ^ 4 + (s0 * 2 ^ 3 + (e0 * 2 ^ 0 + 0)))))
    s2 (by norm_num) (by omega) (by omega)]
  rw [or_field 12 (s2 * 2 ^ 11 + (e2 * 2 ^ 8 + (s1 * 2 ^ 7 + (e1 * 2 ^ 4
    + (s0 * 2 ^ 3 + (e0 * 2 ^ 0 + 0)))))) c (by norm_num) (by omega) (by omega)]

theorem BlobInfo.ext' {a b : BlobInfo} (h1 : a.firstSplat = b.firstSplat)
    (h2 : a.lastSplat = b.lastSplat) (h3 : ∀ i, a.lower i = b.lower i)
    (h4 : ∀ i, a.upper i = b.upper i) : a = b := by
  obtain ⟨af, al, alo, ahi⟩ := a
  obtain ⟨bf, bl, blo, bhi⟩ := b
  simp only at h1 h2 h3 h4
  simp only [BlobInfo.mk.injEq]
  exact ⟨h1, h2, funext h3, funext h4⟩


set_option maxHeartbeats 1000000 in
/-- Decoding one record written by `addBlob` recovers the blob and leaves
    the remaining words untouched, provided the decoder state matches the
    encoder's previous blob whenever the record could be differential. -/
theorem readBlobRecord_addBlobRecord (cur prev b : BlobInfo) (hb : WFBlob b)
    (nonempty : Bool) (hcur : nonempty = true → cur = prev) (t : List ℕ) :
    readBlobRecord cur (addBlobRecord nonempty prev b ++ t) = some (b, t) := by
  obtain ⟨hfl, hl64, hbox⟩ := hb
  by_cases hdiff : (nonempty = true ∧ prev.lastSplat = b.firstSplat ∧
      sub64 b.lastSplat b.firstSplat < 2 ^ 19 ∧
      ∀ i : Fin 3, ¬(b.upper i - b.lower i > 1 ∨ b.lower i < prev.upper i - 4 ∨
        b.lower i > prev.upper i + 3))
  · obtain ⟨hne, hfirst, hcnt, haxes⟩ := hdiff
    obtain rfl := hcur hne
    rw [addBlobRecord, if_pos ⟨hne, hfirst, hcnt, haxes⟩]
    simp only [insertSigned, insertUnsigned, Nat.zero_or]
    push_neg at haxes
    set e0 := (if b.lower 0 - cur.upper 0 < 0 then b.lower 0 - cur.upper 0 + 2 ^ (3 - 0)
        else b.lower 0 - cur.upper 0).toNat with he0
    set e1 := (if b.lower 1 - cur.upper 1 < 0 then b.lower 1 - cur.upper 1 + 2 ^ (7 - 4)
        else b.lower 1 - cur.upper 1).toNat with he1
    set e2 := (if b.lower 2 - cur.upper 2 < 0 then b.lower 2 - cur.upper 2 + 2 ^ (11 - 8)
        else b.lower 2 - cur.upper 2).toNat with he2
    set s0 := toUInt32 (b.upper 0 - b.lower 0) with hs0
    set s1 := toUInt32 (b.upper 1 - b.lower 1) with hs1
    set s2 := toUInt32 (b.upper 2 - b.lower 2) with hs2
    set c := sub64 b.lastSplat b.firstSplat with hc
    obtain ⟨hax0a, hax0b, hax0c⟩ := haxes 0
    obtain ⟨hax1a, hax1b, hax1c⟩ := haxes 1
    obtain ⟨hax2a, hax2b, hax2c⟩ := haxes 2
    obtain ⟨hbox0a, hbox0b, hbox0c⟩ := hbox 0
    obtain ⟨hbox1a, hbox1b, hbox1c⟩ := hbox 1
    obtain ⟨hbox2a, hbox2b, hbox2c⟩ := hbox 2
    have he0lt : e0 < 8 := by rw [he0]; split <;> omega
    have he1lt : e1 < 8 := by rw [he1]; split <;> omega
    have he2lt : e2 < 8 := by rw [he2]; split <;> omega
    have hs0lt : s0 < 2 := by rw [hs0]; unfold toUInt32; omega
    have hs1lt : s1 < 2 := by rw [hs1]; unfold toUInt32; omega
    have hs2lt : s2 < 2 := by rw [hs2]; unfold toUInt32; omega
    rw [List.singleton_append,
      payload_eq e0 e1 e2 s0 s1 s2 c he0lt he1lt he2lt hs0lt hs1lt hs2lt hcnt]
    set S := c * 2 ^ 12 + (s2 * 2 ^ 11 + (e2 * 2 ^ 8 + (s1 * 2 ^ 7
      + (e1 * 2 ^ 4 + (s0 * 2 ^ 3 + (e0 * 2 ^ 0 + 0)))))) with hS
    simp only [toUInt32] at hs0 hs1 hs2
    unfold sub64 at hc
    clear_value e0 e1 e2 s0 s1 s2 c S
    have hSlt : S < 2 ^ 31 := by omega
    simp only [readBlobRecord]
    rw [if_pos (tag_set hSlt)]
    have hu0 : extractUnsigned (2 ^ 31 + S) 0 3 = e0 := by
      rw [extractUnsigned_eq_div_mod]
      show (2 ^ 31 + S) / 2 ^ 0 % 2 ^ 3 = e0
      omega
    have hu1 : extractUnsigned (2 ^ 31 + S) 4 7 = e1 := by
      rw [extractUnsigned_eq_div_mod]
      show (2 ^ 31 + S) / 2 ^ 4 % 2 ^ 3 = e1
      omega
    have hu2 : extractUnsigned (2 ^ 31 + S) 8 11 = e2 := by
      rw [extractUnsigned_eq_div_mod]
      show (2 ^ 31 + S) / 2 ^ 8 % 2 ^ 3 = e2
      omega
    have hv0 : extractUnsigned (2 ^ 31 + S) 3 4 = s0 := by
      rw [extractUnsigned_eq_div_mod]
      show (2 ^ 31 + S) / 2 ^ 3 % 2 ^ 1 = s0
      omega
    have hv1 : extractUnsigned (2 ^ 31 + S) 7 8 = s1 := by
      rw [extractUnsigned_eq_div_mod]
      show (2 ^ 31 + S) / 2 ^ 7 % 2 ^ 1 = s1
      omega
    have hv2 : extractUnsigned (2 ^ 31 + S) 11 12 = s2 := by
      rw [extractUnsigned_eq_div_mod]
      show (2 ^ 31 + S) / 2 ^ 11 % 2 ^ 1 = s2
      omega
    have hsgn0 : extractSigned (2 ^ 31 + S) 0 3
        = if 4 ≤ e0 then (e0 : ℤ) - 8 else (e0 : ℤ) := by
      show (if extractUnsigned (2 ^ 31 + S) 0 3 &&& 1 <<< 2 ≠ 0
          then (extractUnsigned (2 ^ 31 + S) 0 3 : ℤ) - 2 ^ 3
          else (extractUnsigned (2 ^ 31 + S) 0 3 : ℤ)) = _
      rw [hu0]
      by_cases h4 : 4 ≤ e0
      · rw [if_pos ((and_four_ne_zero he0lt).mpr h4), if_pos h4]
        norm_num
      · rw [if_neg (fun hcon => h4 ((and_four_ne_zero he0lt).mp hcon)), if_neg h4]
    have hsgn1 : extractSigned (2 ^ 31 + S) 4 7
        = if 4 ≤ e1 then (e1 : ℤ) - 8 else (e1 : ℤ) := by
      show (if extractUnsigned (2 ^ 31 + S) 4 7 &&& 1 <<< 2 ≠ 0
          then (extractUnsigned (2 ^ 31 + S) 4 7 : ℤ) - 2 ^ 3
          else (extractUnsigned (2 ^ 31 + S) 4 7 : ℤ)) = _
      rw [hu1]
      by_cases h4 : 4 ≤ e1
      · rw [if_pos ((and_four_ne_zero he1lt).mpr h4), if_pos h4]
        norm_num
      · rw [if_neg (fun hcon => h4 ((and_four_ne_zero he1lt).mp hcon)), if_neg h4]
    have hsgn2 : extractSigned (2 ^ 31 + S) 8 11
        = if 4 ≤ e2 then (e2 : ℤ) - 8 else (e2 : ℤ) := by
      show (if extractUnsigned (2 ^ 31 + S) 8 11 &&& 1 <<< 2 ≠ 0
          then (extractUnsigned (2 ^ 31 + S) 8 11 : ℤ) - 2 ^ 3
          else (extractUnsigned (2 ^ 31 + S) 8 11 : ℤ)) = _
      rw [hu2]
      by_cases h4 : 4 ≤ e2
      · rw [if_pos ((and_four_ne_zero he2lt).mpr h4), if_pos h4]
        norm_num
      · rw [if_neg (fun hcon => h4 ((and_four_ne_zero he2lt).mp hcon)), if_neg h4]
    have hlow0 : cur.upper 0 + extractSigned (2 ^ 31 + S) 0 3 = b.lower 0 := by
      rw [hsgn0, he0]
      by_cases hd : b.lower 0 - cur.upper 0 < 0
      · rw [if_pos hd]
        split <;> omega
      · rw [if_neg hd]
        split <;> omega
    have hlow1 : cur.upper 1 + extractSigned (2 ^ 31 + S) 4 7 = b.lower 1 := by
      rw [hsgn1, he1]
      by_cases hd : b.lower 1 - cur.upper 1 < 0
      · rw [if_pos hd]
        split <;> omega
      · rw [if_neg hd]
        split <;> omega
    have hlow2 : cur.upper 2 + extractSigned (2 ^ 31 + S) 8 11 = b.lower 2 := by
      rw [hsgn2, he2]
      by_cases hd : b.lower 2 - cur.upper 2 < 0
      · rw [if_pos hd]
        split <;> omega
      · rw [if_neg hd]
        split <;> omega
    clear he0 he1 he2 hsgn0 hsgn1 hsgn2
    simp only [Option.some.injEq, Prod.mk.injEq]
    refine ⟨BlobInfo.ext' hfirst ?_ ?_ ?_, trivial⟩
    · show (cur.lastSplat + extractUnsigned (2 ^ 31 + S) 12 31) % 2 ^ 64 = b.lastSplat
      have hcv : extractUnsigned (2 ^ 31 + S) 12 31 = c := by
        rw [extractUnsigned_eq_div_mod]
        show (2 ^ 31 + S) / 2 ^ 12 % 2 ^ 19 = c
        omega
      rw [hcv, hfirst]
      omega
    · intro i
      fin_cases i
      · exact hlow0
      · exact hlow1
      · exact hlow2
    · intro i
      fin_cases i
      · show cur.upper 0 + extractSigned (2 ^ 31 + S) 0 3
            + (extractUnsigned (2 ^ 31 + S) 3 4 : ℤ) = b.upper 0
        rw [hlow0, hv0]
        omega
      · show cur.upper 1 + extractSigned (2 ^ 31 + S) 4 7
            + (extractUnsigned (2 ^ 31 + S) 7 8 : ℤ) = b.upper 1
        rw [hlow1, hv1]
        omega
      · show cur.upper 2 + extractSigned (2 ^ 31 + S) 8 11
            + (extractUnsigned (2 ^ 31 + S) 11 12 : ℤ) = b.upper 2
        rw [hlow2, hv2]
        omega
  · rw [addBlobRecord, if_neg hdiff]
    obtain ⟨hbox0a, hbox0b, hbox0c⟩ := hbox 0
    obtain ⟨hbox1a, hbox1b, hbox1c⟩ := hbox 1
    obtain ⟨hbox2a, hbox2b, hbox2c⟩ := hbox 2
    simp only [List.cons_append, List.nil_append, readBlobRecord]
    have htag : (b.firstSplat >>> 32) % 2 ^ 32 &&& 0x80000000 = 0 := by
      rw [Nat.shiftRight_eq_div_pow]
      apply tag_clear
      omega
    rw [if_neg (not_ne_iff.mpr htag)]
    show some (({ firstSplat := ((b.firstSplat >>> 32) % 2 ^ 32) <<< 32
                    ||| (b.firstSplat &&& 0xFFFFFFFF),
                  lastSplat := ((b.lastSplat >>> 32) % 2 ^ 32) <<< 32
                    ||| (b.lastSplat &&& 0xFFFFFFFF),
                  lower := ![toInt32 (toUInt32 (b.lower 0)), toInt32 (toUInt32 (b.lower 1)),
                    toInt32 (toUInt32 (b.lower 2))],
                  upper := ![toInt32 (toUInt32 (b.upper 0)), toInt32 (toUInt32 (b.upper 1)),
                    toInt32 (toUInt32 (b.upper 2))] } : BlobInfo), t) = some (b, t)
    have hmaskf : b.firstSplat &&& 0xFFFFFFFF = b.firstSplat % 2 ^ 32 := by
      rw [(by norm_num : (0xFFFFFFFF : ℕ) = 2 ^ 32 - 1), Nat.and_pow_two_sub_one_eq_mod]
    have hmaskl : b.lastSplat &&& 0xFFFFFFFF = b.lastSplat % 2 ^ 32 := by
      rw [(by norm_num : (0xFFFFFFFF : ℕ) = 2 ^ 32 - 1), Nat.and_pow_two_sub_one_eq_mod]
    simp only [Option.some.injEq, Prod.mk.injEq]
    refine ⟨BlobInfo.ext' ?_ ?_ ?_ ?_, trivial⟩
    · show ((b.firstSplat >>> 32) % 2 ^ 32) <<< 32 ||| (b.firstSplat &&& 0xFFFFFFFF)
          = b.firstSplat
      rw [hmaskf, orShift_eq_add 32 _ _ (by omega), Nat.shiftRight_eq_div_pow]
      omega
    · show ((b.lastSplat >>> 32) % 2 ^ 32) <<< 32 ||| (b.lastSplat &&& 0xFFFFFFFF)
          = b.lastSplat
      rw [hmaskl, orShift_eq_add 32 _ _ (by omega), Nat.shiftRight_eq_div_pow]
      omega
    · intro i
      fin_cases i
      · exact toInt32_toUInt32 hbox0b (by omega)
      · exact toInt32_toUInt32 hbox1b (by omega)
      · exact toInt32_toUInt32 hbox2b (by omega)
    · intro i
      fin_cases i
      · exact toInt32_toUInt32 (by omega) hbox0c
      · exact toInt32_toUInt32 (by omega) hbox1c
      · exact toInt32_toUInt32 (by omega) hbox2c

theorem addBlobRecord_ne_nil (nonempty : Bool) (p c : BlobInfo) :
    addBlobRecord nonempty p c ≠ [] := by
  unfold addBlobRecord
  split <;> simp

/-- The words `writeBlobs` appends for `bs` when the data written so far is
    non-empty iff `nonempty` (proof-structuring view of the accumulator). -/
def chunk (nonempty : Bool) (prev : BlobInfo) : List BlobInfo → List ℕ
  | [] => []
  | b :: bs => addBlobRecord nonempty prev b ++ chunk true b bs

theorem writeBlobs_eq : ∀ (bs : List BlobInfo) (data : List ℕ) (prev : BlobInfo),
    writeBlobs data prev bs = data ++ chunk (!data.isEmpty) prev bs := by
  intro bs
  induction bs with
  | nil =>
    intro data prev
    simp [writeBlobs, chunk]
  | cons b bs ih =>
    intro data prev
    rw [writeBlobs, ih (addBlob data prev b) b]
    have hne : (addBlob data prev b).isEmpty = false := by
      unfold addBlob
      cases hr : addBlobRecord (!data.isEmpty) prev b with
      | nil => exact absurd hr (addBlobRecord_ne_nil _ _ _)
      | cons w ws => cases data <;> simp
    rw [hne]
    unfold addBlob
    rw [chunk, List.append_assoc]
    simp

theorem readBlobs_chunk : ∀ (bs : List BlobInfo) (prev cur : BlobInfo) (t : List ℕ)
    (nonempty : Bool), (∀ b ∈ bs, WFBlob b) → (nonempty = true → cur = prev) →
    readBlobs bs.length cur (chunk nonempty prev bs ++ t) = some (bs, t) := by
  intro bs
  induction bs with
  | nil =>
    intro prev cur t nonempty hwf hcur
    simp [chunk, readBlobs]
  | cons b bs ih =>
    intro prev cur t nonempty hwf hcur
    rw [chunk, List.length_cons, List.append_assoc]
    simp only [readBlobs]
    rw [readBlobRecord_addBlobRecord cur prev b (hwf b (List.mem_cons_self b bs))
      nonempty hcur]
    simp [ih b b t true (fun x hx => hwf x (List.mem_cons_of_mem b hx)) (fun _ => rfl)]

/-- C1: a sequence of `BlobInfo` records written by `FastBlobSet::addBlob`
    (full or differential) and read back by `MyBlobStream::refill` from any
    initial decoder state decodes to the original
    `(firstSplat, lastSplat, lower, upper)` sequence bit-exactly; every
    differential record is emitted only under `addBlob`'s legality
    conditions, which the encoding itself enforces. -/
theorem blobFile_roundTrip (prevInit curInit : BlobInfo) (bs : List BlobInfo)
    (hwf : ∀ b ∈ bs, WFBlob b) :
    readBlobs bs.length curInit (writeBlobs [] prevInit bs) = some (bs, []) := by
  rw [writeBlobs_eq bs [] prevInit]
  simpa using readBlobs_chunk bs prevInit curInit [] false hwf (by simp)

/-- Witness for C1: a full record followed by a differential record decode
    back to the blobs that produced them. -/
theorem blobFile_roundTrip_witness :
    readBlobs 2 ⟨0, 0, ![0, 0, 0], ![0, 0, 0]⟩
      (writeBlobs [] ⟨0, 0, ![0, 0, 0], ![0, 0, 0]⟩
        [⟨0, 1, ![0, 0, 0], ![0, 0, 0]⟩, ⟨1, 3, ![1, 0, 0], ![1, 1, 0]⟩])
      = some ([⟨0, 1, ![0, 0, 0], ![0, 0, 0]⟩, ⟨1, 3, ![1, 0, 0], ![1, 1, 0]⟩], []) := by
  refine blobFile_roundTrip ⟨0, 0, ![0, 0, 0], ![0, 0, 0]⟩ ⟨0, 0, ![0, 0, 0], ![0, 0, 0]⟩
    [⟨0, 1, ![0, 0, 0], ![0, 0, 0]⟩, ⟨1, 3, ![1, 0, 0], ![1, 1, 0]⟩] ?_
  intro b hb
  simp only [List.mem_cons, List.not_mem_nil, or_false] at hb
  rcases hb with rfl | rfl <;>
    · refine ⟨by norm_num, by norm_num, ?_⟩
      intro i
      fin_cases i <;> norm_num

/-- C2: `addBlob` emits a 4-byte differential record iff all legality
    conditions hold (previous record exists, box size 0 or 1 per axis as a
    coordinate difference, `lower` within `[prev.upper - 4, prev.upper + 3]`
    on every axis, splat count below `2 ^ 19`, and
    `firstSplat = prev.lastSplat`); otherwise it emits a 40-byte full
    record (one or ten 32-bit words). -/
theorem addBlob_differential_iff (blobData : List ℕ) (prevBlob curBlob : BlobInfo)
    (hwf : WFBlob curBlob) :
    ((addBlob blobData prevBlob curBlob).length = blobData.length + 1 ↔
      blobData ≠ [] ∧
      (∀ i : Fin 3, curBlob.upper i - curBlob.lower i = 0 ∨
        curBlob.upper i - curBlob.lower i = 1) ∧
      (∀ i : Fin 3, prevBlob.upper i - 4 ≤ curBlob.lower i ∧
        curBlob.lower i ≤ prevBlob.upper i + 3) ∧
      curBlob.lastSplat - curBlob.firstSplat < 2 ^ 19 ∧
      curBlob.firstSplat = prevBlob.lastSplat) ∧
    ((addBlob blobData prevBlob curBlob).length = blobData.length + 1 ∨
      (addBlob blobData prevBlob curBlob).length = blobData.length + 10) := by
  obtain ⟨hfl, hl64, hbox⟩ := hwf
  have hcond : ((!blobData.isEmpty) = true ∧ prevBlob.lastSplat = curBlob.firstSplat ∧
      sub64 curBlob.lastSplat curBlob.firstSplat < 2 ^ 19 ∧
      ∀ i : Fin 3, ¬(curBlob.upper i - curBlob.lower i > 1 ∨
        curBlob.lower i < prevBlob.upper i - 4 ∨
        curBlob.lower i > prevBlob.upper i + 3)) ↔
      (blobData ≠ [] ∧
      (∀ i : Fin 3, curBlob.upper i - curBlob.lower i = 0 ∨
        curBlob.upper i - curBlob.lower i = 1) ∧
      (∀ i : Fin 3, prevBlob.upper i - 4 ≤ curBlob.lower i ∧
        curBlob.lower i ≤ prevBlob.upper i + 3) ∧
      curBlob.lastSplat - curBlob.firstSplat < 2 ^ 19 ∧
      curBlob.firstSplat = prevBlob.lastSplat) := by
    unfold sub64
    constructor
    · rintro ⟨h1, h2, h3, h4⟩
      refine ⟨?_, ?_, ?_, ?_, h2.symm⟩
      · cases blobData <;> simp_all
      · intro i
        have ha := h4 i
        have hc := hbox i
        omega
      · intro i
        have ha := h4 i
        omega
      · omega
    · rintro ⟨h1, h2, h3, h4, h5⟩
      refine ⟨?_, h5.symm, by omega, ?_⟩
      · cases blobData <;> simp_all
      · intro i
        have ha := h2 i
        have hc := h3 i
        omega
  unfold addBlob addBlobRecord
  by_cases hC : ((!blobData.isEmpty) = true ∧ prevBlob.lastSplat = curBlob.firstSplat ∧
      sub64 curBlob.lastSplat curBlob.firstSplat < 2 ^ 19 ∧
      ∀ i : Fin 3, ¬(curBlob.upper i - curBlob.lower i > 1 ∨
        curBlob.lower i < prevBlob.upper i - 4 ∨
        curBlob.lower i > prevBlob.upper i + 3))
  · rw [if_pos hC]
    refine ⟨iff_of_true (by simp) (hcond.mp hC), Or.inl (by simp)⟩
  · rw [if_neg hC]
    refine ⟨iff_of_false (by simp) (fun hc => hC (hcond.mpr hc)), Or.inr (by simp)⟩

/-- Witness for C2: with one record already written, a contiguous
    unit-box blob one bucket over is encoded differentially. -/
theorem addBlob_differential_iff_witness :
    ((addBlob [0] ⟨0, 1, ![0, 0, 0], ![0, 0, 0]⟩ ⟨1, 3, ![1, 0, 0], ![1, 1, 0]⟩).length
        = [0].length + 1 ↔
      ([0] : List ℕ) ≠ [] ∧
      (∀ i : Fin 3, (![1, 1, 0] : Fin 3 → ℤ) i - (![1, 0, 0] : Fin 3 → ℤ) i = 0 ∨
        (![1, 1, 0] : Fin 3 → ℤ) i - (![1, 0, 0] : Fin 3 → ℤ) i = 1) ∧
      (∀ i : Fin 3, (![0, 0, 0] : Fin 3 → ℤ) i - 4 ≤ (![1, 0, 0] : Fin 3 → ℤ) i ∧
        (![1, 0, 0] : Fin 3 → ℤ) i ≤ (![0, 0, 0] : Fin 3 → ℤ) i + 3) ∧
      (3 : ℕ) - 1 < 2 ^ 19 ∧ (1 : ℕ) = 1) ∧
    ((addBlob [0] ⟨0, 1, ![0, 0, 0], ![0, 0, 0]⟩ ⟨1, 3, ![1, 0, 0], ![1, 1, 0]⟩).length
        = [0].length + 1 ∨
      (addBlob [0] ⟨0, 1, ![0, 0, 0], ![0, 0, 0]⟩ ⟨1, 3, ![1, 0, 0], ![1, 1, 0]⟩).length
        = [0].length + 10) := by
  refine addBlob_differential_iff [0] ⟨0, 1, ![0, 0, 0], ![0, 0, 0]⟩
    ⟨1, 3, ![1, 0, 0], ![1, 1, 0]⟩ ⟨by norm_num, by norm_num, ?_⟩
  intro i
  fin_cases i <;> norm_num

/-! ## C6: `SequenceSet::MySplatStream::read` (src/splat_set_impl.h:73-106)

The splat type is abstract (`α` with a `finite : α → Bool` predicate
standing for `Splat::isFinite`, whose float test we do not model).  The
owner sequence `[ownerFirst, ownerLast)` is a list; the stream state is
the list of remaining id ranges plus the cursor `cur`.  The inner
`while (cur < end && count > 0)` loop runs at most `end - cur` times;
`readScanGo` recurses on that iteration count, carrying `cur` explicitly.
-/

/-- Inner loop of `read`: starting at index `cur` with `n = end - cur`
    iterations available, copy finite splats (with their ids) while `count`
    lasts.  Returns (splats, ids, new `cur`, remaining `count`). -/
def readScanGo {α : Type} (finite : α → Bool) (own : List α) :
    ℕ → ℕ → ℕ → List α × List ℕ × ℕ × ℕ
  | 0, cur, count => ([], [], cur, count)
  | n + 1, cur, count =>
    if 0 < count then
      match own[cur]? with
      | some x =>
        if finite x then
          let r := readScanGo finite own n (cur + 1) (count - 1)
          (x :: r.1, cur :: r.2.1, r.2.2)
        else
          readScanGo finite own n (cur + 1) count
      | none => readScanGo finite own n (cur + 1) count
    else ([], [], cur, count)

/-- The inner loop from `cur` up to `endv` (exclusive). -/
def readScan {α : Type} (finite : α → Bool) (own : List α)
    (endv cur count : ℕ) : List α × List ℕ × ℕ × ℕ :=
  readScanGo finite own (endv - cur) cur count

/-- The outer loop of `read`: `while (count > 0 && curRange != lastRange)`.
    `end` is the range's end clamped to the owner size; when the cursor
    reaches `end` the stream advances to the next range (resetting `cur`
    to its start).  Returns (splats, ids, remaining ranges, cursor,
    remaining count); the C++ function's return value is
    `count - remaining count`. -/
def readLoop {α : Type} (finite : α → Bool) (own : List α) :
    List (ℕ × ℕ) → ℕ → ℕ → List α × List ℕ × List (ℕ × ℕ) × ℕ × ℕ
  | [], cur, count => ([], [], [], cur, count)
  | r :: rs, cur, count =>
    if 0 < count then
      let endv := min r.2 own.length
      let s := readScan finite own endv cur count
      if endv ≤ s.2.2.1 then
        let cur' := match rs with | [] => s.2.2.1 | r' :: _ => r'.1
        let rest := readLoop finite own rs cur' s.2.2.2
        (s.1 ++ rest.1, s.2.1 ++ rest.2.1, rest.2.2)
      else
        (s.1, s.2.1, r :: rs, s.2.2.1, s.2.2.2)
    else ([], [], r :: rs, cur, count)

theorem readScanGo_spec {α : Type} (finite : α → Bool) (own : List α) :
    ∀ (n cur count : ℕ),
      (readScanGo finite own n cur count).2.2.2 ≤ count ∧
      (readScanGo finite own n cur count).1.length
        = count - (readScanGo finite own n cur count).2.2.2 ∧
      (∀ x ∈ (readScanGo finite own n cur count).1, finite x = true) ∧
      ((readScanGo finite own n cur count).2.2.1 = cur + n ∨
        (readScanGo finite own n cur count).2.2.2 = 0) := by
  intro n
  induction n with
  | zero =>
    intro cur count
    simp [readScanGo]
  | succ n ih =>
    intro cur count
    by_cases hc : 0 < count
    · rw [readScanGo, if_pos hc]
      split
      next x hx =>
        by_cases hf : finite x = true
        · rw [hf, if_pos rfl]
          obtain ⟨ih1, ih2, ih3, ih4⟩ := ih (cur + 1) (count - 1)
          rcases hrec : readScanGo finite own n (cur + 1) (count - 1) with
            ⟨outS, outI, cur', count'⟩
          rw [hrec] at ih1 ih2 ih3 ih4
          simp at ih1 ih2 ih4
          simp only [hrec]
          refine ⟨by omega, by simp; omega, ?_, ?_⟩
          · intro y hy
            simp only [List.mem_cons] at hy
            rcases hy with rfl | hy
            · exact hf
            · exact ih3 y hy
          · omega
        · simp only [Bool.not_eq_true] at hf
          rw [hf]
          simp only [Bool.false_eq_true, if_false]
          obtain ⟨ih1, ih2, ih3, ih4⟩ := ih (cur + 1) count
          exact ⟨ih1, ih2, ih3, by omega⟩
      next hx =>
        obtain ⟨ih1, ih2, ih3, ih4⟩ := ih (cur + 1) count
        exact ⟨ih1, ih2, ih3, by omega⟩
    · rw [readScanGo, if_neg hc]
      refine ⟨le_refl _, by simp, by simp, by simp; omega⟩

/-- C6: for every state of `MySplatStream` and every call
    `read(splats, splatIds, count)`, the returned `actualCount`
    (`count` minus the remaining count) is at most `count`, it equals the
    number of splats written, every splat written to the output is finite
    (non-finite splats are skipped, never returned), and
    `actualCount < count` holds only when the stream has exhausted its
    ranges. -/
theorem mySplatStream_read_spec {α : Type} (finite : α → Bool) (own : List α) :
    ∀ (ranges : List (ℕ × ℕ)) (cur count : ℕ),
      (readLoop finite own ranges cur count).2.2.2.2 ≤ count ∧
      (readLoop finite own ranges cur count).1.length
        = count - (readLoop finite own ranges cur count).2.2.2.2 ∧
      (∀ x ∈ (readLoop finite own ranges cur count).1, finite x = true) ∧
      (count - (readLoop finite own ranges cur count).2.2.2.2 < count →
        (readLoop finite own ranges cur count).2.2.1 = []) := by
  intro ranges
  induction ranges with
  | nil =>
    intro cur count
    simp [readLoop]
  | cons r rs ih =>
    intro cur count
    by_cases hc : 0 < count
    · rw [readLoop, if_pos hc]
      rcases hscan : readScan finite own (min r.2 own.length) cur count with
        ⟨outS, outI, cur1, count1⟩
      have hscan' := hscan
      unfold readScan at hscan'
      obtain ⟨s1, s2, s3, s4⟩ :=
        readScanGo_spec finite own (min r.2 own.length - cur) cur count
      rw [hscan'] at s1 s2 s3 s4
      simp at s1 s2 s4
      simp only [hscan]
      by_cases hadv : min r.2 own.length ≤ cur1
      · rw [if_pos hadv]
        cases rs with
        | nil =>
          simp only [readLoop]
          refine ⟨by omega, by (try simp); omega, ?_, by simp⟩
          intro x hx
          exact s3 x (by simpa using hx)
        | cons r2 rs' =>
          rcases hrest : readLoop finite own (r2 :: rs') r2.1 count1 with
            ⟨S2, I2, rs2, cur2, count2⟩
          obtain ⟨j1, j2, j3, j4⟩ := ih r2.1 count1
          rw [hrest] at j1 j2 j3 j4
          simp at j1 j2 j4
          simp only [hrest]
          refine ⟨by omega, by (try simp); omega, ?_, ?_⟩
          · intro x hx
            simp only [List.mem_append] at hx
            rcases hx with hx | hx
            · exact s3 x (by simpa using hx)
            · exact j3 x (by simpa using hx)
          · intro hlt
            try simp at hlt ⊢
            apply j4 <;> omega
      · rw [if_neg hadv]
        have hcnt1 : count1 = 0 := by
          rcases s4 with h | h
          · exfalso
            apply hadv
            omega
          · exact h
        refine ⟨by (try simp); omega, by (try simp); omega, ?_, ?_⟩
        · intro x hx
          exact s3 x (by simpa using hx)
        · intro hlt
          try simp at hlt ⊢
          omega
    · rw [readLoop, if_neg hc]
      simp
      omega

/-- Witness for C6: reading from a two-range stream over a sequence with a
    non-finite middle element returns only the finite splats. -/
theorem mySplatStream_read_spec_witness :
    (readLoop (fun b : Bool => b) [true, false, true] [(0, 2), (2, 3)] 0 5).2.2.2.2 ≤ 5 ∧
    (readLoop (fun b : Bool => b) [true, false, true] [(0, 2), (2, 3)] 0 5).1.length
      = 5 - (readLoop (fun b : Bool => b) [true, false, true] [(0, 2), (2, 3)] 0 5).2.2.2.2 ∧
    (∀ x ∈ (readLoop (fun b : Bool => b) [true, false, true] [(0, 2), (2, 3)] 0 5).1,
      (fun b : Bool => b) x = true) ∧
    (5 - (readLoop (fun b : Bool => b) [true, false, true] [(0, 2), (2, 3)] 0 5).2.2.2.2 < 5 →
      (readLoop (fun b : Bool => b) [true, false, true] [(0, 2), (2, 3)] 0 5).2.2.1 = []) :=
  mySplatStream_read_spec (fun b : Bool => b) [true, false, true] [(0, 2), (2, 3)] 0 5

/-! ### C10: SplatSet::merge over half-open splat-id range lists

Embedding of `SplatSet::merge` (src/src/splat_set_impl.h lines 875-909).
The C++ works over iterator pairs producing `pair<splat_id, splat_id>`
half-open ranges; we model the two inputs as lists of pairs of naturals.
The inner `while (true)` loop extending `last` is `extendRuns`, with fuel
bounded by the total number of remaining ranges (each iteration consumes
exactly one range from one of the lists).  The outer loop is `mergeGo`,
whose fuel is again the total length (each iteration consumes at least
one range).  `merge` instantiates the fuel. -/

/-- One step of the C++ extension loop consumes the head of `l1` when
    `p1 != last1 && p1->first <= last`, else the head of `l2` under the
    same test, else terminates. -/
def extendRuns : ℕ → List (ℕ × ℕ) → List (ℕ × ℕ) → ℕ →
    List (ℕ × ℕ) × List (ℕ × ℕ) × ℕ
  | 0, l1, l2, last => (l1, l2, last)
  | fuel + 1, l1, l2, last =>
    match l1 with
    | (a, b) :: t1 =>
      if a ≤ last then extendRuns fuel t1 l2 (max last b)
      else
        match l2 with
        | (c, d) :: t2 =>
          if c ≤ last then extendRuns fuel ((a, b) :: t1) t2 (max last d)
          else ((a, b) :: t1, (c, d) :: t2, last)
        | [] => ((a, b) :: t1, [], last)
    | [] =>
      match l2 with
      | (c, d) :: t2 =>
        if c ≤ last then extendRuns fuel [] t2 (max last d)
        else ([], (c, d) :: t2, last)
      | [] => ([], [], last)

/-- Outer loop of `SplatSet::merge`: while both inputs are nonempty, emit
    `(first, last)` where `first = min(p1->first, p2->first)` and `last` is
    the result of the extension loop; afterwards copy the tails. -/
def mergeGo : ℕ → List (ℕ × ℕ) → List (ℕ × ℕ) → List (ℕ × ℕ)
  | 0, l1, l2 => l1 ++ l2
  | _ + 1, [], l2 => l2
  | _ + 1, (a, b) :: t1, [] => (a, b) :: t1
  | fuel + 1, (a, b) :: t1, (c, d) :: t2 =>
    let r := extendRuns (((a, b) :: t1).length + ((c, d) :: t2).length)
      ((a, b) :: t1) ((c, d) :: t2) (min a c)
    (min a c, r.2.2) :: mergeGo fuel r.1 r.2.1

/-- `SplatSet::merge` on range lists. -/
def merge (l1 l2 : List (ℕ × ℕ)) : List (ℕ × ℕ) :=
  mergeGo (l1.length + l2.length) l1 l2

/-- A splat id `x` is covered by a range list if some half-open range
    `[r.1, r.2)` of the list contains it. -/
def covers (l : List (ℕ × ℕ)) (x : ℕ) : Bool :=
  l.any fun r => decide (r.1 ≤ x) && decide (x < r.2)

theorem covers_nil (x : ℕ) : covers [] x = false := rfl

theorem covers_cons (a b x : ℕ) (t : List (ℕ × ℕ)) :
    covers ((a, b) :: t) x = ((decide (a ≤ x) && decide (x < b)) || covers t x) := rfl

theorem covers_iff {l : List (ℕ × ℕ)} {x : ℕ} :
    covers l x = true ↔ ∃ r ∈ l, r.1 ≤ x ∧ x < r.2 := by
  simp [covers]

theorem covers_of_mem {l : List (ℕ × ℕ)} {r : ℕ × ℕ} {x : ℕ}
    (hr : r ∈ l) (h1 : r.1 ≤ x) (h2 : x < r.2) : covers l x = true :=
  covers_iff.mpr ⟨r, hr, h1, h2⟩

/-- In a gapped chain of valid ranges, the head's first endpoint is minimal. -/
theorem gap_cons_le (a : ℕ × ℕ) (t : List (ℕ × ℕ))
    (hc : List.Chain' (fun r s : ℕ × ℕ => r.2 < s.1) (a :: t))
    (hv : ∀ r ∈ a :: t, r.1 < r.2) :
    ∀ r ∈ a :: t, a.1 ≤ r.1 := by
  induction t generalizing a with
  | nil =>
    intro r hr
    simp only [List.mem_singleton] at hr
    subst hr
    exact le_refl _
  | cons b t ih =>
    intro r hr
    rcases List.mem_cons.mp hr with hr | hr
    · subst hr; exact le_refl _
    · have hab : a.2 < b.1 := (List.chain'_cons.mp hc).1
      have hbt := ih b (List.chain'_cons.mp hc).2 (fun s hs => hv s (List.mem_cons_of_mem _ hs))
      have hva : a.1 < a.2 := hv a (List.mem_cons_self _ _)
      have := hbt r hr
      omega

/-- In a gapped chain of valid ranges, a strict lower bound on the head's
    first endpoint bounds every range's first endpoint. -/
theorem gap_all_gt {m : ℕ} {l : List (ℕ × ℕ)}
    (hc : List.Chain' (fun r s : ℕ × ℕ => r.2 < s.1) l)
    (hv : ∀ r ∈ l, r.1 < r.2)
    (hh : ∀ r, l.head? = some r → m < r.1) :
    ∀ r ∈ l, m < r.1 := by
  cases l with
  | nil => intro r hr; simp at hr
  | cons a t =>
    intro r hr
    have ha : m < a.1 := hh a rfl
    have := gap_cons_le a t hc hv r hr
    omega

/-- Rearrangement of the coverage disjunction when the head of the first
    list is absorbed into the growing interval. -/
theorem cover_step₁ {l f a b x : ℕ} (A B : Prop) (hfa : f ≤ a) (hab : a ≤ l) :
    ((f ≤ x ∧ x < max l b) ∨ A ∨ B) ↔ ((f ≤ x ∧ x < l) ∨ ((a ≤ x ∧ x < b) ∨ A) ∨ B) := by
  constructor
  · rintro (⟨h1, h2⟩ | h | h)
    · by_cases hx : x < l
      · exact Or.inl ⟨h1, hx⟩
      · exact Or.inr (Or.inl (Or.inl ⟨by omega, by omega⟩))
    · exact Or.inr (Or.inl (Or.inr h))
    · exact Or.inr (Or.inr h)
  · rintro (⟨h1, h2⟩ | (⟨h3, h4⟩ | h) | h)
    · exact Or.inl ⟨h1, by omega⟩
    · exact Or.inl ⟨by omega, by omega⟩
    · exact Or.inr (Or.inl h)
    · exact Or.inr (Or.inr h)

/-- Rearrangement of the coverage disjunction when the head of the second
    list is absorbed into the growing interval. -/
theorem cover_step₂ {l f c d x : ℕ} (A B : Prop) (hfc : f ≤ c) (hcl : c ≤ l) :
    ((f ≤ x ∧ x < max l d) ∨ A ∨ B) ↔ ((f ≤ x ∧ x < l) ∨ A ∨ ((c ≤ x ∧ x < d) ∨ B)) := by
  constructor
  · rintro (⟨h1, h2⟩ | h | h)
    · by_cases hx : x < l
      · exact Or.inl ⟨h1, hx⟩
      · exact Or.inr (Or.inr (Or.inl ⟨by omega, by omega⟩))
    · exact Or.inr (Or.inl h)
    · exact Or.inr (Or.inr (Or.inr h))
  · rintro (⟨h1, h2⟩ | h | (⟨h3, h4⟩ | h))
    · exact Or.inl ⟨h1, by omega⟩
    · exact Or.inr (Or.inl h)
    · exact Or.inl ⟨by omega, by omega⟩
    · exact Or.inr (Or.inr h)

/-- Specification of the extension loop: with enough fuel it returns
    suffixes of its inputs, only grows `last`, stops with both remaining
    heads strictly beyond the final `last`, and preserves the union of
    covered ids together with the growing interval `[first, last)`. -/
theorem extendRuns_spec (fuel : ℕ) : ∀ (l1 l2 : List (ℕ × ℕ)) (first last : ℕ),
    l1.length + l2.length ≤ fuel →
    (∀ r ∈ l1, first ≤ r.1) → (∀ r ∈ l2, first ≤ r.1) →
    first ≤ last →
    (extendRuns fuel l1 l2 last).1 <:+ l1 ∧
    (extendRuns fuel l1 l2 last).2.1 <:+ l2 ∧
    last ≤ (extendRuns fuel l1 l2 last).2.2 ∧
    (∀ r, (extendRuns fuel l1 l2 last).1.head? = some r →
      (extendRuns fuel l1 l2 last).2.2 < r.1) ∧
    (∀ r, (extendRuns fuel l1 l2 last).2.1.head? = some r →
      (extendRuns fuel l1 l2 last).2.2 < r.1) ∧
    (∀ x, ((first ≤ x ∧ x < (extendRuns fuel l1 l2 last).2.2) ∨
        covers (extendRuns fuel l1 l2 last).1 x = true ∨
        covers (extendRuns fuel l1 l2 last).2.1 x = true) ↔
      ((first ≤ x ∧ x < last) ∨ covers l1 x = true ∨ covers l2 x = true)) := by
  induction fuel with
  | zero =>
    intro l1 l2 first last hfuel hf1 hf2 hfl
    have h1 : l1 = [] := List.length_eq_zero.mp (by omega)
    have h2 : l2 = [] := List.length_eq_zero.mp (by omega)
    subst h1; subst h2
    refine ⟨List.suffix_refl _, List.suffix_refl _, le_refl _, ?_, ?_, fun x => Iff.rfl⟩
    · intro r hr; simp [extendRuns] at hr
    · intro r hr; simp [extendRuns] at hr
  | succ fuel ih =>
    intro l1 l2 first last hfuel hf1 hf2 hfl
    match l1 with
    | (a, b) :: t1 =>
      have hfa : first ≤ a := hf1 (a, b) (List.mem_cons_self _ _)
      by_cases hab : a ≤ last
      · have hred : extendRuns (fuel + 1) ((a, b) :: t1) l2 last
            = extendRuns fuel t1 l2 (max last b) := by
          simp [extendRuns, hab]
        rw [hred]
        obtain ⟨j1, j2, j3, j4, j5, j6⟩ := ih t1 l2 first (max last b)
          (by simp at hfuel ⊢; omega)
          (fun r hr => hf1 r (List.mem_cons_of_mem _ hr)) hf2
          (le_trans hfl (le_max_left _ _))
        refine ⟨j1.trans (List.suffix_cons _ _), j2,
          le_trans (le_max_left _ _) j3, j4, j5, ?_⟩
        intro x
        refine (j6 x).trans ?_
        have := cover_step₁ (l := last) (f := first) (a := a) (b := b) (x := x)
          (covers t1 x = true) (covers l2 x = true) hfa hab
        rw [covers_cons]
        simp only [Bool.or_eq_true, Bool.and_eq_true, decide_eq_true_eq]
        exact this
      · match l2 with
        | (c, d) :: t2 =>
          have hfc : first ≤ c := hf2 (c, d) (List.mem_cons_self _ _)
          by_cases hcd : c ≤ last
          · have hred : extendRuns (fuel + 1) ((a, b) :: t1) ((c, d) :: t2) last
                = extendRuns fuel ((a, b) :: t1) t2 (max last d) := by
              simp [extendRuns, hab, hcd]
            rw [hred]
            obtain ⟨j1, j2, j3, j4, j5, j6⟩ := ih ((a, b) :: t1) t2 first (max last d)
              (by simp at hfuel ⊢; omega)
              hf1 (fun r hr => hf2 r (List.mem_cons_of_mem _ hr))
              (le_trans hfl (le_max_left _ _))
            refine ⟨j1, j2.trans (List.suffix_cons _ _),
              le_trans (le_max_left _ _) j3, j4, j5, ?_⟩
            intro x
            refine (j6 x).trans ?_
            have := cover_step₂ (l := last) (f := first) (c := c) (d := d) (x := x)
              (covers ((a, b) :: t1) x = true) (covers t2 x = true) hfc hcd
            rw [covers_cons c d x t2]
            simp only [Bool.or_eq_true, Bool.and_eq_true, decide_eq_true_eq]
            exact this
          · have hred : extendRuns (fuel + 1) ((a, b) :: t1) ((c, d) :: t2) last
                = ((a, b) :: t1, (c, d) :: t2, last) := by
              simp [extendRuns, hab, hcd]
            rw [hred]
            refine ⟨List.suffix_refl _, List.suffix_refl _, le_refl _, ?_, ?_,
              fun x => Iff.rfl⟩
            · intro r hr
              simp only [List.head?_cons, Option.some_inj] at hr
              subst hr
              show last < a
              omega
            · intro r hr
              simp only [List.head?_cons, Option.some_inj] at hr
              subst hr
              show last < c
              omega
        | [] =>
          have hred : extendRuns (fuel + 1) ((a, b) :: t1) [] last
              = ((a, b) :: t1, [], last) := by
            simp [extendRuns, hab]
          rw [hred]
          refine ⟨List.suffix_refl _, List.suffix_refl _, le_refl _, ?_, ?_,
            fun x => Iff.rfl⟩
          · intro r hr
            simp only [List.head?_cons, Option.some_inj] at hr
            subst hr
            show last < a
            omega
          · intro r hr; simp at hr
    | [] =>
      match l2 with
      | (c, d) :: t2 =>
        have hfc : first ≤ c := hf2 (c, d) (List.mem_cons_self _ _)
        by_cases hcd : c ≤ last
        · have hred : extendRuns (fuel + 1) [] ((c, d) :: t2) last
              = extendRuns fuel [] t2 (max last d) := by
            simp [extendRuns, hcd]
          rw [hred]
          obtain ⟨j1, j2, j3, j4, j5, j6⟩ := ih [] t2 first (max last d)
            (by simp at hfuel ⊢; omega)
            hf1 (fun r hr => hf2 r (List.mem_cons_of_mem _ hr))
            (le_trans hfl (le_max_left _ _))
          refine ⟨j1, j2.trans (List.suffix_cons _ _),
            le_trans (le_max_left _ _) j3, j4, j5, ?_⟩
          intro x
          refine (j6 x).trans ?_
          have := cover_step₂ (l := last) (f := first) (c := c) (d := d) (x := x)
            (covers ([] : List (ℕ × ℕ)) x = true) (covers t2 x = true) hfc hcd
          rw [covers_cons c d x t2]
          simp only [Bool.or_eq_true, Bool.and_eq_true, decide_eq_true_eq]
          exact this
        · have hred : extendRuns (fuel + 1) [] ((c, d) :: t2) last
              = ([], (c, d) :: t2, last) := by
            simp [extendRuns, hcd]
          rw [hred]
          refine ⟨List.suffix_refl _, List.suffix_refl _, le_refl _, ?_, ?_,
            fun x => Iff.rfl⟩
          · intro r hr; simp at hr
          · intro r hr
            simp only [List.head?_cons, Option.some_inj] at hr
            subst hr
            show last < c
            omega
      | [] =>
        have hred : extendRuns (fuel + 1) ([] : List (ℕ × ℕ)) [] last
            = ([], [], last) := by
          simp [extendRuns]
        rw [hred]
        refine ⟨List.suffix_refl _, List.suffix_refl _, le_refl _, ?_, ?_,
          fun x => Iff.rfl⟩
        · intro r hr; simp at hr
        · intro r hr; simp at hr

/-- Specification of the outer merge loop: with enough fuel, merging two
    valid gapped range lists yields a valid gapped list covering exactly
    the union of the inputs. -/
theorem mergeGo_spec (fuel : ℕ) : ∀ (l1 l2 : List (ℕ × ℕ)),
    l1.length + l2.length ≤ fuel →
    (∀ r ∈ l1, r.1 < r.2) → (∀ r ∈ l2, r.1 < r.2) →
    List.Chain' (fun r s : ℕ × ℕ => r.2 < s.1) l1 →
    List.Chain' (fun r s : ℕ × ℕ => r.2 < s.1) l2 →
    (∀ r ∈ mergeGo fuel l1 l2, r.1 < r.2) ∧
    List.Chain' (fun r s : ℕ × ℕ => r.2 < s.1) (mergeGo fuel l1 l2) ∧
    (∀ x, covers (mergeGo fuel l1 l2) x = true ↔
      (covers l1 x = true ∨ covers l2 x = true)) := by
  induction fuel with
  | zero =>
    intro l1 l2 hfuel hv1 hv2 hc1 hc2
    have h1 : l1 = [] := List.length_eq_zero.mp (by omega)
    have h2 : l2 = [] := List.length_eq_zero.mp (by omega)
    subst h1; subst h2
    refine ⟨?_, ?_, ?_⟩
    · intro r hr; simp [mergeGo] at hr
    · simp [mergeGo]
    · intro x; simp [mergeGo, covers]
  | succ fuel ih =>
    intro l1 l2 hfuel hv1 hv2 hc1 hc2
    match l1, l2 with
    | [], l2 =>
      have hred : mergeGo (fuel + 1) [] l2 = l2 := by simp [mergeGo]
      rw [hred]
      refine ⟨hv2, hc2, fun x => ?_⟩
      rw [covers_nil]
      simp
    | (a, b) :: t1, [] =>
      have hred : mergeGo (fuel + 1) ((a, b) :: t1) [] = (a, b) :: t1 := by
        simp [mergeGo]
      rw [hred]
      refine ⟨hv1, hc1, fun x => ?_⟩
      rw [covers_nil]
      simp
    | (a, b) :: t1, (c, d) :: t2 =>
      have hfa : ∀ r ∈ (a, b) :: t1, min a c ≤ r.1 := by
        intro r hr
        have h : a ≤ r.1 := gap_cons_le (a, b) t1 hc1 hv1 r hr
        omega
      have hfc : ∀ r ∈ (c, d) :: t2, min a c ≤ r.1 := by
        intro r hr
        have h : c ≤ r.1 := gap_cons_le (c, d) t2 hc2 hv2 r hr
        omega
      obtain ⟨hs1, hs2, hlast, hh1, hh2, hiff⟩ :=
        extendRuns_spec (((a, b) :: t1).length + ((c, d) :: t2).length)
          ((a, b) :: t1) ((c, d) :: t2) (min a c) (min a c)
          (le_refl _) hfa hfc (le_refl _)
      rcases hE : extendRuns (((a, b) :: t1).length + ((c, d) :: t2).length)
          ((a, b) :: t1) ((c, d) :: t2) (min a c) with ⟨l1', l2', last'⟩
      rw [hE] at hs1 hs2 hlast hh1 hh2 hiff
      have js1 : l1' <:+ (a, b) :: t1 := hs1
      have js2 : l2' <:+ (c, d) :: t2 := hs2
      have jlast : min a c ≤ last' := hlast
      have jh1 : ∀ r, l1'.head? = some r → last' < r.1 := hh1
      have jh2 : ∀ r, l2'.head? = some r → last' < r.1 := hh2
      have jiff : ∀ x, ((min a c ≤ x ∧ x < last') ∨
          covers l1' x = true ∨ covers l2' x = true) ↔
          ((min a c ≤ x ∧ x < min a c) ∨
            covers ((a, b) :: t1) x = true ∨ covers ((c, d) :: t2) x = true) := hiff
      have hredM : mergeGo (fuel + 1) ((a, b) :: t1) ((c, d) :: t2)
          = (min a c, last') :: mergeGo fuel l1' l2' := by
        simp only [mergeGo]
        rw [hE]
      rw [hredM]
      have hv1' : ∀ r ∈ l1', r.1 < r.2 := fun r hr => hv1 r (js1.sublist.subset hr)
      have hv2' : ∀ r ∈ l2', r.1 < r.2 := fun r hr => hv2 r (js2.sublist.subset hr)
      have hc1' : List.Chain' (fun r s : ℕ × ℕ => r.2 < s.1) l1' := hc1.suffix js1
      have hc2' : List.Chain' (fun r s : ℕ × ℕ => r.2 < s.1) l2' := hc2.suffix js2
      have hgt1 : ∀ r ∈ l1', last' < r.1 := gap_all_gt hc1' hv1' jh1
      have hgt2 : ∀ r ∈ l2', last' < r.1 := gap_all_gt hc2' hv2' jh2
      have hnotCov : ∀ y, y ≤ last' → ¬(covers l1' y = true ∨ covers l2' y = true) := by
        intro y hy h
        rcases h with h | h
        · obtain ⟨r, hr, hr1, _⟩ := covers_iff.mp h
          have := hgt1 r hr
          omega
        · obtain ⟨r, hr, hr1, _⟩ := covers_iff.mp h
          have := hgt2 r hr
          omega
      have hml : min a c < last' := by
        have hcovm : covers ((a, b) :: t1) (min a c) = true ∨
            covers ((c, d) :: t2) (min a c) = true := by
          rcases le_total a c with h | h
          · left
            refine covers_of_mem (List.mem_cons_self _ _) ?_ ?_
            · show a ≤ min a c; omega
            · show min a c < b
              have hb : a < b := hv1 (a, b) (List.mem_cons_self _ _)
              omega
          · right
            refine covers_of_mem (List.mem_cons_self _ _) ?_ ?_
            · show c ≤ min a c; omega
            · show min a c < d
              have hd : c < d := hv2 (c, d) (List.mem_cons_self _ _)
              omega
        have := (jiff (min a c)).mpr (Or.inr hcovm)
        rcases this with ⟨_, h⟩ | h
        · exact h
        · exact absurd h (hnotCov _ jlast)
      have hlen : l1'.length + l2'.length ≤ fuel := by
        have hL : ((a, b) :: t1).length + ((c, d) :: t2).length ≤ fuel + 1 := hfuel
        rcases le_total a c with h | h
        · have hnotmem : (a, b) ∉ l1' := by
            intro hmem
            have := hgt1 (a, b) hmem
            simp at this
            omega
          have ht1 : l1' <:+ t1 := by
            rcases List.suffix_cons_iff.mp js1 with heq | hsuf
            · exact absurd (heq ▸ List.mem_cons_self _ _) hnotmem
            · exact hsuf
          have h1 := ht1.sublist.length_le
          have h2 := js2.sublist.length_le
          simp only [List.length_cons] at hL h2
          omega
        · have hnotmem : (c, d) ∉ l2' := by
            intro hmem
            have := hgt2 (c, d) hmem
            simp at this
            omega
          have ht2 : l2' <:+ t2 := by
            rcases List.suffix_cons_iff.mp js2 with heq | hsuf
            · exact absurd (heq ▸ List.mem_cons_self _ _) hnotmem
            · exact hsuf
          have h1 := js1.sublist.length_le
          have h2 := ht2.sublist.length_le
          simp only [List.length_cons] at hL h1
          omega
      obtain ⟨iv, ic, icov⟩ := ih l1' l2' hlen hv1' hv2' hc1' hc2'
      refine ⟨?_, ?_, ?_⟩
      · intro r hr
        rcases List.mem_cons.mp hr with hr | hr
        · subst hr; exact hml
        · exact iv r hr
      · refine List.chain'_cons'.mpr ⟨?_, ic⟩
        intro y hy
        have hy' := List.mem_of_mem_head? hy
        have hyv := iv y hy'
        have hcovy : covers (mergeGo fuel l1' l2') y.1 = true :=
          covers_of_mem hy' (le_refl _) hyv
        have := (icov y.1).mp hcovy
        show last' < y.1
        rcases this with h | h
        · obtain ⟨r, hr, hr1, _⟩ := covers_iff.mp h
          have := hgt1 r hr
          omega
        · obtain ⟨r, hr, hr1, _⟩ := covers_iff.mp h
          have := hgt2 r hr
          omega
      · intro x
        rw [covers_cons]
        simp only [Bool.or_eq_true, Bool.and_eq_true, decide_eq_true_eq]
        rw [icov x]
        rw [jiff x]
        constructor
        · rintro (⟨h1, h2⟩ | h | h)
          · omega
          · exact Or.inl h
          · exact Or.inr h
        · intro h
          exact Or.inr h

/-- **C10.** For two input lists of half-open splat-id ranges, each sorted
    and maximally coalesced (every range nonempty and each range's second
    endpoint strictly below the next range's first endpoint),
    `SplatSet::merge` produces a list that is again sorted and maximally
    coalesced with strict gaps, consists of nonempty ranges, and covers
    exactly the union of the splat ids covered by the two inputs. -/
theorem merge_spec (l1 l2 : List (ℕ × ℕ))
    (hv1 : ∀ r ∈ l1, r.1 < r.2) (hv2 : ∀ r ∈ l2, r.1 < r.2)
    (hc1 : List.Chain' (fun r s : ℕ × ℕ => r.2 < s.1) l1)
    (hc2 : List.Chain' (fun r s : ℕ × ℕ => r.2 < s.1) l2) :
    (∀ r ∈ merge l1 l2, r.1 < r.2) ∧
    List.Chain' (fun r s : ℕ × ℕ => r.2 < s.1) (merge l1 l2) ∧
    (∀ x, covers (merge l1 l2) x = true ↔
      (covers l1 x = true ∨ covers l2 x = true)) :=
  mergeGo_spec (l1.length + l2.length) l1 l2 (le_refl _) hv1 hv2 hc1 hc2

/-- Witness for C10 on two concrete overlapping coalesced range lists. -/
theorem merge_spec_witness :
    (∀ r ∈ merge [(0, 2), (5, 7)] [(1, 3), (7, 9)], r.1 < r.2) ∧
    List.Chain' (fun r s : ℕ × ℕ => r.2 < s.1) (merge [(0, 2), (5, 7)] [(1, 3), (7, 9)]) ∧
    (∀ x, covers (merge [(0, 2), (5, 7)] [(1, 3), (7, 9)]) x = true ↔
      (covers [(0, 2), (5, 7)] x = true ∨ covers [(1, 3), (7, 9)] x = true)) :=
  merge_spec [(0, 2), (5, 7)] [(1, 3), (7, 9)]
    (by decide) (by decide)
    (by norm_num [List.chain'_cons]) (by norm_num [List.chain'_cons])

/-! ### C7: CopyGroupBase::Worker::operator() and progressSplats

Embedding of `CopyGroupBase::Worker::operator()` (src/src/workers.cpp lines
377-418) together with `flush` (lines 340-375).  Splat positions are floats
in the source, abstracted as ℚ here; grid extents are pairs of signed
integers (`Grid::extent_type`).  The per-splat test is the literal loop
`inside = inside && p >= e.first && p < e.second` over `j = 0, 1, 2`, with
the float position compared against the integer extents.  `flush` pushes
the accumulated sub-items to the device group and resets the buffer;
`operator()` flushes when the new item would overflow the pinned buffer,
then appends a SubItem recording `progressSplats`. -/

/-- Per-splat inside test from the copy worker: fold of
    `inside = inside && p >= e.first && p < e.second` over the three axes. -/
def inside (g : Fin 3 → ℤ × ℤ) (p : Fin 3 → ℚ) : Bool :=
  ([0, 1, 2] : List (Fin 3)).foldl
    (fun acc j => acc && decide (((g j).1 : ℚ) ≤ p j) && decide (p j < ((g j).2 : ℚ)))
    true

/-- The `progressSplats += inside` accumulation over a work item's splats. -/
def progressCount (splats : List (Fin 3 → ℚ)) (g : Fin 3 → ℤ × ℤ) : ℕ :=
  splats.foldl (fun acc p => acc + (if inside g p then 1 else 0)) 0

/-- The fields of `DeviceWorkerGroup::SubItem` recorded by the copy worker
    (grid and chunk id omitted: they are not involved in this claim). -/
structure CopySubItem where
  numSplats : ℕ
  firstSplat : ℕ
  progressSplats : ℕ
  deriving Repr, DecidableEq

/-- A work item handed to the copy worker: its bucket grid extents and its
    splats (only positions are relevant). -/
structure CopyWorkItem where
  grid : Fin 3 → ℤ × ℤ
  splats : List (Fin 3 → ℚ)

/-- Copy-worker state: the pinned-buffer fill level, the buffered sub-items
    not yet pushed, and the sub-items already emitted by `flush`. -/
structure CopyState where
  bufferedSplats : ℕ
  bufferedItems : List CopySubItem
  emitted : List CopySubItem
  deriving Repr

/-- `CopyGroupBase::Worker::flush`: push all buffered sub-items and reset. -/
def flushC (st : CopyState) : CopyState :=
  { bufferedSplats := 0
    bufferedItems := []
    emitted := st.emitted ++ st.bufferedItems }

/-- `CopyGroupBase::Worker::operator()`: flush if the item would overflow
    the pinned buffer, then copy the splats, counting those inside the
    item's grid extents, and append the resulting SubItem. -/
def copyWorkerStep (maxDeviceItemSplats : ℕ) (st : CopyState) (w : CopyWorkItem) :
    CopyState :=
  let st := if maxDeviceItemSplats < st.bufferedSplats + w.splats.length
    then flushC st else st
  { bufferedSplats := st.bufferedSplats + w.splats.length
    bufferedItems := st.bufferedItems ++
      [{ numSplats := w.splats.length
         firstSplat := st.bufferedSplats
         progressSplats := progressCount w.splats w.grid }]
    emitted := st.emitted }

/-- Process a whole sequence of work items from an empty buffer, with a
    final flush (performed by `stop`). -/
def copyWorkerRun (maxDeviceItemSplats : ℕ) (items : List CopyWorkItem) : CopyState :=
  flushC (items.foldl (copyWorkerStep maxDeviceItemSplats) ⟨0, [], []⟩)

/-- Sum of the `progressSplats` fields over a list of sub-items. -/
def sumProgress (l : List CopySubItem) : ℕ :=
  (l.map fun si => si.progressSplats).sum

theorem inside_iff (g : Fin 3 → ℤ × ℤ) (p : Fin 3 → ℚ) :
    inside g p = true ↔ ∀ j : Fin 3, ((g j).1 : ℚ) ≤ p j ∧ p j < ((g j).2 : ℚ) := by
  simp only [inside, List.foldl, Bool.true_and, Bool.and_eq_true, decide_eq_true_eq]
  constructor
  · intro h j
    obtain ⟨⟨⟨⟨⟨h0a, h0b⟩, h1a⟩, h1b⟩, h2a⟩, h2b⟩ := h
    fin_cases j
    · exact ⟨h0a, h0b⟩
    · exact ⟨h1a, h1b⟩
    · exact ⟨h2a, h2b⟩
  · intro h
    obtain ⟨h0a, h0b⟩ := h 0
    obtain ⟨h1a, h1b⟩ := h 1
    obtain ⟨h2a, h2b⟩ := h 2
    exact ⟨⟨⟨⟨⟨h0a, h0b⟩, h1a⟩, h1b⟩, h2a⟩, h2b⟩

theorem progressCount_go (g : Fin 3 → ℤ × ℤ) :
    ∀ (l : List (Fin 3 → ℚ)) (n : ℕ),
      l.foldl (fun acc p => acc + (if inside g p then 1 else 0)) n
        = n + l.countP fun p => inside g p := by
  intro l
  induction l with
  | nil => intro n; simp
  | cons p l ih =>
    intro n
    rw [List.foldl_cons, ih, List.countP_cons]
    by_cases hp : inside g p
    · simp [hp]; omega
    · simp [hp]

theorem progressCount_eq_countP (splats : List (Fin 3 → ℚ)) (g : Fin 3 → ℤ × ℤ) :
    progressCount splats g = splats.countP fun p => inside g p := by
  rw [progressCount, progressCount_go]
  omega

/-- Sum invariant of the copy-worker loop: the total `progressSplats` over
    emitted and still-buffered sub-items grows by each item's inside count. -/
theorem copyWorkerFold_sum (maxDeviceItemSplats : ℕ) :
    ∀ (items : List CopyWorkItem) (st : CopyState),
      sumProgress (items.foldl (copyWorkerStep maxDeviceItemSplats) st).emitted
        + sumProgress (items.foldl (copyWorkerStep maxDeviceItemSplats) st).bufferedItems
      = sumProgress st.emitted + sumProgress st.bufferedItems
        + (items.map fun w => w.splats.countP fun p => inside w.grid p).sum := by
  intro items
  induction items with
  | nil => intro st; simp
  | cons w items ih =>
    intro st
    rw [List.foldl_cons, ih]
    by_cases hc : maxDeviceItemSplats < st.bufferedSplats + w.splats.length
    · simp [copyWorkerStep, flushC, hc, sumProgress, progressCount_eq_countP]
      omega
    · simp [copyWorkerStep, flushC, hc, sumProgress, progressCount_eq_countP]
      omega

/-- **C7.** Each work item processed by the copy worker appends a SubItem
    whose `progressSplats` counts exactly the item's splats lying, on every
    axis, in the half-open interval of the item's grid extents (the code's
    inside test is equivalent to that axis-wise characterization); and,
    provided the in-extent splats collected over all work items are exactly
    the input splats falling inside the global grid, the sum of
    `progressSplats` over all emitted SubItems equals the number of input
    splats inside the global grid. -/
theorem copyWorker_progress (maxDeviceItemSplats : ℕ) (items : List CopyWorkItem)
    (G : Fin 3 → ℤ × ℤ) (S : List (Fin 3 → ℚ))
    (htile : (items.flatMap fun w => w.splats.filter fun p => inside w.grid p).Perm
      (S.filter fun p => inside G p)) :
    (∀ (st : CopyState) (w : CopyWorkItem),
      ((copyWorkerStep maxDeviceItemSplats st w).bufferedItems).getLast? = some
        { numSplats := w.splats.length
          firstSplat := if maxDeviceItemSplats < st.bufferedSplats + w.splats.length
            then 0 else st.bufferedSplats
          progressSplats := w.splats.countP fun p => inside w.grid p }) ∧
    (∀ (g : Fin 3 → ℤ × ℤ) (p : Fin 3 → ℚ),
      inside g p = true ↔ ∀ j : Fin 3, ((g j).1 : ℚ) ≤ p j ∧ p j < ((g j).2 : ℚ)) ∧
    sumProgress (copyWorkerRun maxDeviceItemSplats items).emitted
      = S.countP fun p => inside G p := by
  refine ⟨?_, inside_iff, ?_⟩
  · intro st w
    by_cases hc : maxDeviceItemSplats < st.bufferedSplats + w.splats.length
    · simp [copyWorkerStep, flushC, hc, progressCount_eq_countP]
    · simp [copyWorkerStep, flushC, hc, progressCount_eq_countP]
  · have hrun := copyWorkerFold_sum maxDeviceItemSplats items ⟨0, [], []⟩
    have hemit : sumProgress (copyWorkerRun maxDeviceItemSplats items).emitted
        = sumProgress (items.foldl (copyWorkerStep maxDeviceItemSplats) ⟨0, [], []⟩).emitted
          + sumProgress (items.foldl (copyWorkerStep maxDeviceItemSplats) ⟨0, [], []⟩).bufferedItems := by
      simp [copyWorkerRun, flushC, sumProgress]
    rw [hemit, hrun]
    have hsum : (items.map fun w => w.splats.countP fun p => inside w.grid p).sum
        = (items.flatMap fun w => w.splats.filter fun p => inside w.grid p).length := by
      rw [List.length_flatMap]
      congr 1
      congr 1
      funext w
      simp [Function.comp, List.countP_eq_length_filter]
    rw [hsum, htile.length_eq, ← List.countP_eq_length_filter]
    simp [sumProgress]

/-- Witness for C7: two work items whose in-extent splats are exactly the
    global-grid splats of a three-splat input. -/
theorem copyWorker_progress_witness :
    (∀ (st : CopyState) (w : CopyWorkItem),
      ((copyWorkerStep 10 st w).bufferedItems).getLast? = some
        { numSplats := w.splats.length
          firstSplat := if 10 < st.bufferedSplats + w.splats.length
            then 0 else st.bufferedSplats
          progressSplats := w.splats.countP fun p => inside w.grid p }) ∧
    (∀ (g : Fin 3 → ℤ × ℤ) (p : Fin 3 → ℚ),
      inside g p = true ↔ ∀ j : Fin 3, ((g j).1 : ℚ) ≤ p j ∧ p j < ((g j).2 : ℚ)) ∧
    sumProgress (copyWorkerRun 10
        [⟨fun _ => (0, 1), [fun _ => (0 : ℚ), fun _ => (5 : ℚ)]⟩,
         ⟨fun _ => (1, 2), [fun _ => (1 : ℚ)]⟩]).emitted
      = ([fun _ => (0 : ℚ), fun _ => (1 : ℚ), fun _ => (5 : ℚ)]
          : List (Fin 3 → ℚ)).countP fun p => inside (fun _ => (0, 2)) p :=
  copyWorker_progress 10
    [⟨fun _ => (0, 1), [fun _ => (0 : ℚ), fun _ => (5 : ℚ)]⟩,
     ⟨fun _ => (1, 2), [fun _ => (1 : ℚ)]⟩]
    (fun _ => (0, 2))
    [fun _ => (0 : ℚ), fun _ => (1 : ℚ), fun _ => (5 : ℚ)]
    (by decide)

/-! ### C8: DeviceWorkerGroup unallocated_ accounting

Embedding of the `unallocated_` accounting of `DeviceWorkerGroup`
(src/src/workers.cpp).  The constructor sets
`unallocated_ = maxItemSplats * items` with `items = numWorkers + spare`
(lines 110-117) and fills the item pool with `items` work items.  `get`
pops an item from the pool and subtracts `numSplats` (lines 136-146); the
producer (the copy worker's `flush`) fills the item with sub-items whose
`numSplats` sum to the amount passed to `get`, each at most
`maxItemSplats`.  The device worker adds back `sub.numSplats` for each
completed sub-item (lines 281-284), and `freeItem` returns the drained
item to the pool (lines 148-161).  `unallocated_` is modelled as ℤ so
that nonnegativity is a conclusion, not an assumption. -/

/-- State of a `DeviceWorkerGroup`: pool size, the unallocated splat
    counter, and the pending (not-yet-completed) sub-item sizes of each
    in-flight work item. -/
structure DeviceGroupState where
  freeItems : ℕ
  unallocated : ℤ
  inFlight : List (List ℕ)
  deriving Repr, DecidableEq

/-- Constructor state: full pool and `unallocated_ = maxItemSplats * items`. -/
def initState (maxItemSplats items : ℕ) : DeviceGroupState :=
  ⟨items, (maxItemSplats * items : ℕ), []⟩

/-- Total splats in flight: sum of pending sub-item sizes over all
    in-flight items. -/
def inFlightSplats (s : DeviceGroupState) : ℕ :=
  (s.inFlight.map List.sum).sum

/-- Transitions of the accounting: `get` allocates an item for sub-items
    summing to the requested `numSplats` (at most an item's capacity) and
    subtracts it; a device worker completes one pending sub-item of some
    in-flight item and adds its size back; `freeItem` returns a drained
    item to the pool. -/
inductive DeviceStep (maxItemSplats : ℕ) : DeviceGroupState → DeviceGroupState → Prop
  | get (s : DeviceGroupState) (subs : List ℕ)
      (hsub : subs.sum ≤ maxItemSplats) (hfree : 0 < s.freeItems) :
      DeviceStep maxItemSplats s
        ⟨s.freeItems - 1, s.unallocated - (subs.sum : ℤ), subs :: s.inFlight⟩
  | process (s : DeviceGroupState) (pre post : List (List ℕ)) (n : ℕ) (rest : List ℕ)
      (h : s.inFlight = pre ++ (n :: rest) :: post) :
      DeviceStep maxItemSplats s
        ⟨s.freeItems, s.unallocated + (n : ℤ), pre ++ rest :: post⟩
  | free (s : DeviceGroupState) (pre post : List (List ℕ))
      (h : s.inFlight = pre ++ [] :: post) :
      DeviceStep maxItemSplats s ⟨s.freeItems + 1, s.unallocated, pre ++ post⟩

/-- Reachability from the constructor state. -/
inductive DeviceReachable (maxItemSplats items : ℕ) : DeviceGroupState → Prop
  | init : DeviceReachable maxItemSplats items (initState maxItemSplats items)
  | step {s t : DeviceGroupState} : DeviceReachable maxItemSplats items s →
      DeviceStep maxItemSplats s t → DeviceReachable maxItemSplats items t

/-- Inductive invariant of the accounting: the balance equation, pool plus
    in-flight item conservation, and the per-item capacity bound. -/
theorem deviceReachable_inv (maxItemSplats items : ℕ) (s : DeviceGroupState)
    (hs : DeviceReachable maxItemSplats items s) :
    s.unallocated + (inFlightSplats s : ℤ) = ((maxItemSplats * items : ℕ) : ℤ) ∧
    s.inFlight.length + s.freeItems = items ∧
    (∀ l ∈ s.inFlight, l.sum ≤ maxItemSplats) := by
  induction hs with
  | init =>
    refine ⟨?_, ?_, ?_⟩
    · simp [initState, inFlightSplats]
    · simp [initState]
    · intro l hl; simp [initState] at hl
  | @step s t hprev hstep ih =>
    obtain ⟨ih1, ih2, ih3⟩ := ih
    cases hstep with
    | get subs hsub hfree =>
      refine ⟨?_, ?_, ?_⟩
      · simp only [inFlightSplats, List.map_cons, List.sum_cons] at ih1 ⊢
        push_cast at ih1 ⊢
        omega
      · simp only [List.length_cons]
        omega
      · intro l hl
        rcases List.mem_cons.mp hl with hl | hl
        · subst hl; exact hsub
        · exact ih3 l hl
    | process pre post n rest h =>
      refine ⟨?_, ?_, ?_⟩
      · simp only [inFlightSplats, h, List.map_append, List.sum_append,
          List.map_cons, List.sum_cons] at ih1 ⊢
        push_cast at ih1 ⊢
        omega
      · simp only [h, List.length_append, List.length_cons] at ih2 ⊢
        omega
      · intro l hl
        simp only [List.mem_append, List.mem_cons] at hl
        rcases hl with hl | hl | hl
        · exact ih3 l (by simp [h, hl])
        · subst hl
          have := ih3 (n :: l) (by simp [h])
          simp only [List.sum_cons] at this
          omega
        · exact ih3 l (by simp [h, hl])
    | free pre post h =>
      refine ⟨?_, ?_, ?_⟩
      · simp only [inFlightSplats, h, List.map_append, List.sum_append,
          List.map_cons, List.sum_cons, List.sum_nil] at ih1 ⊢
        push_cast at ih1 ⊢
        omega
      · simp only [h, List.length_append, List.length_cons] at ih2 ⊢
        omega
      · intro l hl
        simp only [List.mem_append] at hl
        rcases hl with hl | hl
        · exact ih3 l (by simp [h, hl])
        · exact ih3 l (by simp [h, hl])

/-- **C8.** In every reachable state of the `unallocated_` accounting,
    `unallocated_` plus the splats of all in-flight not-yet-completed
    sub-items equals `maxItemSplats * items` with `items = numWorkers +
    spare`; hence the splats in flight never exceed that bound, and once
    all items are drained `unallocated_` is back at its initial value. -/
theorem deviceWorkerGroup_unallocated (maxItemSplats items : ℕ) (s : DeviceGroupState)
    (hs : DeviceReachable maxItemSplats items s) :
    s.unallocated + (inFlightSplats s : ℤ) = ((maxItemSplats * items : ℕ) : ℤ) ∧
    inFlightSplats s ≤ maxItemSplats * items ∧
    (s.inFlight = [] → s.unallocated = ((maxItemSplats * items : ℕ) : ℤ)) := by
  obtain ⟨h1, h2, h3⟩ := deviceReachable_inv maxItemSplats items s hs
  refine ⟨h1, ?_, ?_⟩
  · have hx : ∀ x ∈ s.inFlight.map List.sum, x ≤ maxItemSplats := by
      intro x hx
      obtain ⟨l, hl, rfl⟩ := List.mem_map.mp hx
      exact h3 l hl
    have hb := List.sum_le_card_nsmul (s.inFlight.map List.sum) maxItemSplats hx
    simp only [smul_eq_mul, List.length_map] at hb
    have hlen : s.inFlight.length ≤ items := by omega
    calc inFlightSplats s ≤ s.inFlight.length * maxItemSplats := hb
    _ ≤ items * maxItemSplats := Nat.mul_le_mul_right _ hlen
    _ = maxItemSplats * items := Nat.mul_comm _ _
  · intro hdrained
    have hz : inFlightSplats s = 0 := by simp [inFlightSplats, hdrained]
    omega

/-- Witness for C8 at the state reached by one `get` of sub-items
    `[2, 1]` from the initial state with `maxItemSplats = 4` and
    `items = 3`. -/
theorem deviceWorkerGroup_unallocated_witness :
    (⟨2, 9, [[2, 1]]⟩ : DeviceGroupState).unallocated
        + (inFlightSplats ⟨2, 9, [[2, 1]]⟩ : ℤ) = ((4 * 3 : ℕ) : ℤ) ∧
    inFlightSplats ⟨2, 9, [[2, 1]]⟩ ≤ 4 * 3 ∧
    ((⟨2, 9, [[2, 1]]⟩ : DeviceGroupState).inFlight = [] →
      (⟨2, 9, [[2, 1]]⟩ : DeviceGroupState).unallocated = ((4 * 3 : ℕ) : ℤ)) :=
  deviceWorkerGroup_unallocated 4 3 ⟨2, 9, [[2, 1]]⟩
    (DeviceReachable.step DeviceReachable.init
      (DeviceStep.get (initState 4 3) [2, 1] (by decide) (by decide)))

/-! ### C9: SplatTree::initialize on a single splat

Embedding of `SplatTree::initialize` (splat_tree.cpp lines 247-380) from
the integer-box stage onwards: the float rounding that produces each
splat's per-axis integer range `[ilo, ihi]` is abstracted, and a splat is
given directly by that box.  The rest is literal: the coarsening shift
loop, the `maxLevel` loop, entry generation over the box in z/y/x order,
`std::stable_sort` by (level ascending, code descending) — modelled as a
stable insertion sort with the source's `operator<` — and the command
build over levels with codes descending, with the `start` array
propagating parent pointers (`start[code >> 3]`) into empty cells, and
`realStart[x, y, z] = start[makeCode(x, y, z)]`. -/

/-- Construction-time entry (`struct Entry` in splat_tree.cpp). -/
structure SplatEntry where
  level : ℕ
  code : ℕ
  splatId : ℤ
  deriving Repr, DecidableEq

/-- `Entry::operator<`: by level, then by code decreasing. -/
def ltE (e f : SplatEntry) : Bool :=
  if e.level ≠ f.level then decide (e.level < f.level) else decide (e.code > f.code)

/-- Stable insertion into a sorted list: `e` goes before the first element
    not strictly below it, so equal keys keep their original order. -/
def insertE (e : SplatEntry) : List SplatEntry → List SplatEntry
  | [] => [e]
  | f :: t => if ltE f e then f :: insertE e t else e :: f :: t

/-- Stable sort by `Entry::operator<` (models `std::stable_sort`). -/
def sortEntries : List SplatEntry → List SplatEntry
  | [] => []
  | e :: t => insertE e (sortEntries t)

/-- The per-axis coarsening loop
    `while ((ihi >> shift) - (ilo >> shift) > 1) shift++`. -/
def shiftLoop : ℕ → ℕ → ℕ → ℕ → ℕ
  | 0, _, _, s => s
  | fuel + 1, lo, hi, s =>
    if (hi >>> s) - (lo >>> s) > 1 then shiftLoop fuel lo hi (s + 1) else s

/-- The shift after running the coarsening loop over the three axes with a
    shared `shift` variable. -/
def splatShift (lo hi : Fin 3 → ℕ) : ℕ :=
  shiftLoop 32 (lo 2) (hi 2) (shiftLoop 32 (lo 1) (hi 1) (shiftLoop 32 (lo 0) (hi 0) 0))

/-- `while ((1U << maxLevel) < size) maxLevel++`. -/
def maxLevelLoop : ℕ → ℕ → ℕ → ℕ
  | 0, _, m => m
  | fuel + 1, size, m =>
    if (1 <<< m) < size then maxLevelLoop fuel size (m + 1) else m

def treeMaxLevel (size : ℕ) : ℕ := maxLevelLoop 32 size 0

/-- Entries generated for one splat box: coarsen, then emit one entry per
    covered cell in z/y/x loop order at level `maxLevel - shift`. -/
def boxEntries (splatId : ℤ) (maxLevel : ℕ) (lo hi : Fin 3 → ℕ) : List SplatEntry :=
  let s := splatShift lo hi
  let l := fun i : Fin 3 => lo i >>> s
  let h := fun i : Fin 3 => hi i >>> s
  let level := maxLevel - s
  ((List.range (h 2 - l 2 + 1)).map (l 2 + ·)).flatMap fun z =>
    ((List.range (h 1 - l 1 + 1)).map (l 1 + ·)).flatMap fun y =>
      ((List.range (h 0 - l 0 + 1)).map (l 0 + ·)).map fun x =>
        ⟨level, makeCode x y z, splatId⟩

/-- All entries over the splat list, splat ids in order. -/
def allEntries (boxes : List ((Fin 3 → ℕ) × (Fin 3 → ℕ))) (maxLevel : ℕ) :
    List SplatEntry :=
  boxes.enum.flatMap fun ib => boxEntries (ib.1 : ℤ) maxLevel ib.2.1 ib.2.2

/-- Length of the contiguous run of entries at `(level, code)` starting at
    position `p` (the `while (entries[q].level == level && entries[q].code
    == code) q++` scan). -/
def runLength (entries : List SplatEntry) (p level code : ℕ) : ℕ :=
  ((entries.drop p).takeWhile fun e =>
    decide (e.level = level) && decide (e.code = code)).length

/-- One iteration of the command-build inner loop at a given `(level,
    code)`: state is `(commands, start, p)`. -/
def buildStep (entries : List SplatEntry) (level : ℕ)
    (st : List ℤ × List ℤ × ℕ) (code : ℕ) : List ℤ × List ℤ × ℕ :=
  let commands := st.1
  let start := st.2.1
  let p := st.2.2
  let len := runLength entries p level code
  let up := start.getD (code >>> 3) (-1)
  if 0 < len then
    let first : ℤ := commands.length
    (commands ++ ((entries.drop p).take len).map (fun e => e.splatId)
        ++ [if up = -1 then -1 else -2 - up],
      start.set code first, p + len)
  else
    (commands, start.set code up, p)

/-- The command-build double loop: levels ascending, codes descending,
    starting from an all `-1` start array of size `2^(3*maxLevel)`. -/
def buildCommands (entries : List SplatEntry) (numLevels maxLevel : ℕ) :
    List ℤ × List ℤ :=
  let final := (List.range numLevels).foldl
    (fun st level =>
      ((List.range (1 <<< (3 * level))).reverse).foldl (buildStep entries level) st)
    ([], List.replicate (1 <<< (3 * maxLevel)) (-1), 0)
  (final.1, final.2.1)

/-- `SplatTree::initialize` from the integer-box stage: returns the
    commands array, the (code-indexed) start array, and `maxLevel`. -/
def splatTreeInit (dims : Fin 3 → ℕ)
    (boxes : List ((Fin 3 → ℕ) × (Fin 3 → ℕ))) : List ℤ × List ℤ × ℕ :=
  let size := max (dims 0) (max (dims 1) (dims 2))
  let maxLevel := treeMaxLevel size
  let numLevels := maxLevel + 1
  let entries := sortEntries (allEntries boxes maxLevel)
  let cs := buildCommands entries numLevels maxLevel
  (cs.1, cs.2, maxLevel)

/-- The transfer loop `realStart[z][y][x] = start[makeCode(x, y, z)]`. -/
def realStart (start : List ℤ) (x y z : ℕ) : ℤ :=
  start.getD (makeCode x y z) (-1)

/-- The tree built from one splat with integer box `[0,1]^3` on a
    3x3x3-vertex grid. -/
def singleSplatResult : List ℤ × List ℤ × ℕ :=
  splatTreeInit (fun _ => 3) [(fun _ => 0, fun _ => 1)]

set_option maxRecDepth 40000 in
/-- **C9.** Building a SplatTree from exactly one splat whose box covers
    cells `[0,1]^3` yields a commands array of eight runs, each being the
    splat's id `0` followed by the terminator `-1`; for every covered cell
    the start entry at its code is a nonnegative index pointing at such a
    run, and for every cell outside the coverage the transferred start
    entry is `-1`. -/
theorem splatTree_singleSplat :
    singleSplatResult.1 =
      [0, -1, 0, -1, 0, -1, 0, -1, 0, -1, 0, -1, 0, -1, 0, -1] ∧
    (∀ x y z : Fin 2,
      0 ≤ singleSplatResult.2.1.getD (makeCode x.val y.val z.val) (-1) ∧
      singleSplatResult.1.getD
        (singleSplatResult.2.1.getD (makeCode x.val y.val z.val) (-1)).toNat 99 = 0 ∧
      singleSplatResult.1.getD
        ((singleSplatResult.2.1.getD (makeCode x.val y.val z.val) (-1)).toNat + 1) 99
        = -1) ∧
    (∀ x y z : Fin 3,
      realStart singleSplatResult.2.1 x.val y.val z.val =
        if x.val ≤ 1 ∧ y.val ≤ 1 ∧ z.val ≤ 1
        then singleSplatResult.2.1.getD (makeCode x.val y.val z.val) (-1)
        else -1) := by
  decide

/-! ### C3: bucketRecurse caps and the DensityError path

Embedding of `bucketRecurse` (src/src/bucket.cpp lines 474-564) with its
helpers `mulSat`, `divUp`, `forEachCell`/`forEachCell_r`, `CountSplat`,
`PickCells` and `BucketSplats`.  Splat geometry is abstracted: the
box-vs-box test `splatCellIntersect` (float arithmetic) is a parameter
`I : splat id → cell → grid → Bool`.  Splat ranges are flattened to id
lists; a cell's `SplatRangeCounter::countSplats()` is the number of
appends, which the embedding tracks directly.  `Grid` is not part of the
sources under verification (grid.cpp is absent); `GridE`, `gridNumCells`
and `subGrid` are modelled from the spec: integer extents `[lo, hi)` per
axis, `numCells(i) = hi_i - lo_i`, and `subGrid` producing extents
`[lo + x0, lo + x1)` covering exactly the requested cell.  Recursion depth
is fuel; `none` means the fuel ran out, i.e. the recursion did not
terminate within that depth. -/

/-- Modelled from the spec: a grid as integer extents `[lo, hi)` per axis
    (reference point and spacing omitted: the bucketing arithmetic only
    uses extents). -/
abbrev GridE := (ℤ × ℤ) × (ℤ × ℤ) × (ℤ × ℤ)

/-- Modelled from the spec: `numCells(i) = hi_i - lo_i`. -/
def gridNumCells (g : GridE) : ℕ × ℕ × ℕ :=
  ((g.1.2 - g.1.1).toNat, (g.2.1.2 - g.2.1.1).toNat, (g.2.2.2 - g.2.2.1).toNat)

/-- `max(max(dims[0], dims[1]), dims[2])` from bucketRecurse. -/
def gridMaxDim (g : GridE) : ℕ :=
  max (max (gridNumCells g).1 (gridNumCells g).2.1) (gridNumCells g).2.2

/-- Modelled from the spec: `subGrid` covering exactly the requested cell,
    extents `[lo + x0, lo + x1)` etc. -/
def subGrid (g : GridE) (x0 x1 y0 y1 z0 z1 : ℕ) : GridE :=
  ((g.1.1 + x0, g.1.1 + x1), (g.2.1.1 + y0, g.2.1.1 + y1),
    (g.2.2.1 + z0, g.2.2.1 + z1))

/-- `mulSat` for `std::size_t`: saturating multiply at `2^64 - 1`. -/
def mulSat (a b : ℕ) : ℕ :=
  if a = 0 ∨ b ≤ (2 ^ 64 - 1) / a then a * b else 2 ^ 64 - 1

/-- `divUp`: divide and round up. -/
def divUp (a b : ℕ) : ℕ := (a + b - 1) / b

/-- A power-of-two cell of the virtual octree (`struct Cell`). -/
structure BCell where
  level : ℕ
  bx : ℕ
  by' : ℕ
  bz : ℕ
  deriving Repr, DecidableEq

/-- Child `i` of a cell: offset each axis by `half` when the matching bit
    of `i` is set (`i & 1` for x, `i & 2` for y, `i & 4` for z). -/
def bcellChild (b : ℕ × ℕ × ℕ) (half i : ℕ) : ℕ × ℕ × ℕ :=
  (b.1 + (if i &&& 1 = 0 then 0 else half),
   b.2.1 + (if i &&& 2 = 0 then 0 else half),
   b.2.2 + (if i &&& 4 = 0 then 0 else half))

/-- `forEachCell_r`: call `f` on the cell; if it returns true and the
    level is positive, recurse into the eight half-size children whose
    base lies inside `dims`, in order `i = 0..7`. -/
def forEachCellGo {σ : Type} (dims : ℕ × ℕ × ℕ) (f : σ → BCell → σ × Bool) :
    ℕ → ℕ × ℕ × ℕ → σ → σ
  | 0, b, st => (f st ⟨0, b.1, b.2.1, b.2.2⟩).1
  | l + 1, b, st =>
    let r := f st ⟨l + 1, b.1, b.2.1, b.2.2⟩
    if r.2 then
      let half := 1 <<< l
      let c0 := bcellChild b half 0
      let s0 := if c0.1 < dims.1 ∧ c0.2.1 < dims.2.1 ∧ c0.2.2 < dims.2.2 then
        forEachCellGo dims f l c0 r.1 else r.1
      let c1 := bcellChild b half 1
      let s1 := if c1.1 < dims.1 ∧ c1.2.1 < dims.2.1 ∧ c1.2.2 < dims.2.2 then
        forEachCellGo dims f l c1 s0 else s0
      let c2 := bcellChild b half 2
      let s2 := if c2.1 < dims.1 ∧ c2.2.1 < dims.2.1 ∧ c2.2.2 < dims.2.2 then
        forEachCellGo dims f l c2 s1 else s1
      let c3 := bcellChild b half 3
      let s3 := if c3.1 < dims.1 ∧ c3.2.1 < dims.2.1 ∧ c3.2.2 < dims.2.2 then
        forEachCellGo dims f l c3 s2 else s2
      let c4 := bcellChild b half 4
      let s4 := if c4.1 < dims.1 ∧ c4.2.1 < dims.2.1 ∧ c4.2.2 < dims.2.2 then
        forEachCellGo dims f l c4 s3 else s3
      let c5 := bcellChild b half 5
      let s5 := if c5.1 < dims.1 ∧ c5.2.1 < dims.2.1 ∧ c5.2.2 < dims.2.2 then
        forEachCellGo dims f l c5 s4 else s4
      let c6 := bcellChild b half 6
      let s6 := if c6.1 < dims.1 ∧ c6.2.1 < dims.2.1 ∧ c6.2.2 < dims.2.2 then
        forEachCellGo dims f l c6 s5 else s5
      let c7 := bcellChild b half 7
      let s7 := if c7.1 < dims.1 ∧ c7.2.1 < dims.2.1 ∧ c7.2.2 < dims.2.2 then
        forEachCellGo dims f l c7 s6 else s6
      s7
    else r.1

/-- The do-while loop picking `microSize = 2^microShift` with at most
    `maxSplit` microblocks (body runs at least once). -/
def microLoop : ℕ → ℕ × ℕ × ℕ → ℕ → ℕ → ℕ → ℕ × ℕ
  | 0, _, _, ms, sh => (ms, sh)
  | fuel + 1, dims, maxSplit, ms, sh =>
    let ms' := ms * 2
    let sh' := sh + 1
    let blocks := mulSat (mulSat (mulSat 1 (divUp dims.1 ms'))
      (divUp dims.2.1 ms')) (divUp dims.2.2 ms')
    if maxSplit < blocks then microLoop fuel dims maxSplit ms' sh' else (ms', sh')

/-- The `macroLevels` loop: smallest `m ≥ 1` with
    `microSize << (m - 1) ≥ maxDim`. -/
def coarseLoop : ℕ → ℕ → ℕ → ℕ → ℕ
  | 0, _, _, m => m
  | fuel + 1, ms, maxDim, m =>
    if ms <<< (m - 1) < maxDim then coarseLoop fuel ms maxDim (m + 1) else m

/-- Histogram pass (`CountSplat`): for each splat descend from the root,
    incrementing the counter of every intersecting cell, stopping below
    at microblock level. -/
def countPhase (I : ℕ → BCell → GridE → Bool) (grid : GridE) (dims : ℕ × ℕ × ℕ)
    (microShift rootLevel : ℕ) (splats : List ℕ) : BCell → ℕ :=
  splats.foldl
    (fun cnt s =>
      forEachCellGo dims
        (fun cnt cell =>
          if I s cell grid then
            ((fun c => if c = cell then cnt c + 1 else cnt c),
              decide (microShift < cell.level))
          else (cnt, false))
        rootLevel (0, 0, 0) cnt)
    (fun _ => 0)

/-- Cell-picking pass (`PickCells`): prune empty cells; pick a cell if it
    is a microblock or small enough with few enough splats; else split. -/
def pickPhase (counts : BCell → ℕ) (dims : ℕ × ℕ × ℕ)
    (microShift rootLevel maxSplats maxCells : ℕ) : List BCell :=
  forEachCellGo dims
    (fun picked cell =>
      if counts cell = 0 then (picked, false)
      else if cell.level = microShift ∨
          ((1 <<< cell.level) ≤ maxCells ∧ counts cell ≤ maxSplats) then
        (picked ++ [cell], false)
      else (picked, true))
    rootLevel (0, 0, 0) []

/-- Partition pass (`BucketSplats`): route each splat into every picked
    cell it intersects, descending through unpicked cells. -/
def bucketPhase (I : ℕ → BCell → GridE → Bool) (grid : GridE)
    (dims : ℕ × ℕ × ℕ) (picked : List BCell) (rootLevel : ℕ)
    (splats : List ℕ) : List (List ℕ) :=
  splats.foldl
    (fun bks s =>
      forEachCellGo dims
        (fun bks cell =>
          if I s cell grid then
            if cell ∈ picked then
              let i := picked.indexOf cell
              (bks.set i (bks.getD i [] ++ [s]), false)
            else (bks, true)
          else (bks, false))
        rootLevel (0, 0, 0) bks)
    (List.replicate picked.length [])

/-- Data for the recursive step on each picked cell: its splat list, its
    counter value (the `numSplats` passed down), and the `subGrid`
    covering exactly the cell. -/
def childData (grid : GridE) (counts : BCell → ℕ) (picked : List BCell)
    (buckets : List (List ℕ)) : List (List ℕ × ℕ × GridE) :=
  (List.range picked.length).map fun i =>
    let c := picked.getD i ⟨0, 0, 0, 0⟩
    let size := 1 <<< c.level
    (buckets.getD i [], counts c,
      subGrid grid c.bx (c.bx + size) c.by' (c.by' + size) c.bz (c.bz + size))

/-- `bucketRecurse`, fuelled.  Base case: both caps hold, emit the bucket
    `(numSplats, grid)`.  Otherwise run the two passes, pick cells, and
    recurse on every picked cell; `none` when the fuel runs out before
    the recursion bottoms out. -/
def bucketRecurse (I : ℕ → BCell → GridE → Bool)
    (maxSplats maxCells maxSplit : ℕ) :
    ℕ → List ℕ → ℕ → GridE → Option (List (ℕ × GridE))
  | 0, _, _, _ => none
  | fuel + 1, splats, numSplats, grid =>
    let dims := gridNumCells grid
    let maxDim := gridMaxDim grid
    if numSplats ≤ maxSplats ∧ maxDim ≤ maxCells then
      some [(numSplats, grid)]
    else
      let ms := microLoop 64 dims maxSplit 1 0
      let microShift := ms.2
      let lvls := coarseLoop 64 ms.1 maxDim 1
      let rootLevel := microShift + lvls - 1
      let counts := countPhase I grid dims microShift rootLevel splats
      let picked := pickPhase counts dims microShift rootLevel maxSplats maxCells
      let buckets := bucketPhase I grid dims picked rootLevel splats
      (childData grid counts picked buckets).foldr
        (fun c acc =>
          match bucketRecurse I maxSplats maxCells maxSplit fuel c.1 c.2.1 c.2.2,
            acc with
          | some a, some b => some (a ++ b)
          | _, _ => none)
        (some [])

/-- The over-dense scenario: ten splats all intersecting every cell. -/
def denseTen : List ℕ := [0, 1, 2, 3, 4, 5, 6, 7, 8, 9]

/-- A one-cell grid (extents `[0,1)` on every axis). -/
def oneCellGrid : GridE := ((0, 1), (0, 1), (0, 1))

/-- The self-reproducing grid reached after one recursion step from
    `oneCellGrid`: extents `[0,2)` on every axis. -/
def twoCellGrid : GridE := ((0, 2), (0, 2), (0, 2))

/-- Sequencing the recursion over a child list preserves the caps of every
    emitted bucket, given that each child call does. -/
theorem bucketFoldr_caps (I : ℕ → BCell → GridE → Bool) (msp mc msl fuel : ℕ)
    (ih : ∀ (splats : List ℕ) (numSplats : ℕ) (grid : GridE) (out : List (ℕ × GridE)),
      bucketRecurse I msp mc msl fuel splats numSplats grid = some out →
      ∀ b ∈ out, b.1 ≤ msp ∧ gridMaxDim b.2 ≤ mc) :
    ∀ (cs : List (List ℕ × ℕ × GridE)) (out : List (ℕ × GridE)),
      cs.foldr
        (fun c acc =>
          match bucketRecurse I msp mc msl fuel c.1 c.2.1 c.2.2, acc with
          | some a, some b => some (a ++ b)
          | _, _ => none)
        (some []) = some out →
      ∀ b ∈ out, b.1 ≤ msp ∧ gridMaxDim b.2 ≤ mc := by
  intro cs
  induction cs with
  | nil =>
    intro out h b hb
    simp only [List.foldr_nil, Option.some_inj] at h
    subst h
    simp at hb
  | cons c cs ihc =>
    intro out h b hb
    rw [List.foldr_cons] at h
    cases hrec : bucketRecurse I msp mc msl fuel c.1 c.2.1 c.2.2 with
    | none =>
      rw [hrec] at h
      cases hacc : cs.foldr
          (fun c acc =>
            match bucketRecurse I msp mc msl fuel c.1 c.2.1 c.2.2, acc with
            | some a, some b => some (a ++ b)
            | _, _ => none)
          (some []) with
      | none => rw [hacc] at h; exact absurd h (by simp)
      | some bs => rw [hacc] at h; exact absurd h (by simp)
    | some a =>
      rw [hrec] at h
      cases hacc : cs.foldr
          (fun c acc =>
            match bucketRecurse I msp mc msl fuel c.1 c.2.1 c.2.2, acc with
            | some a, some b => some (a ++ b)
            | _, _ => none)
          (some []) with
      | none => rw [hacc] at h; exact absurd h (by simp)
      | some bs =>
        rw [hacc] at h
        simp only [Option.some_inj] at h
        subst h
        rcases List.mem_append.mp hb with hba | hbb
        · exact ih c.1 c.2.1 c.2.2 a hrec b hba
        · exact ihc bs hacc b hbb

/-- On the self-reproducing over-dense state the recursion consumes all
    fuel: the sole picked cell is the microblock covering the whole grid,
    whose subGrid is the grid itself with the same ten splats. -/
theorem denseTwoCell_none :
    ∀ fuel : ℕ,
      bucketRecurse (fun _ _ _ => true) 5 8 8 fuel denseTen 10 twoCellGrid = none := by
  intro fuel
  induction fuel with
  | zero => rfl
  | succ fuel ih =>
    have hstep : bucketRecurse (fun _ _ _ => true) 5 8 8 (fuel + 1) denseTen 10 twoCellGrid
        = match bucketRecurse (fun _ _ _ => true) 5 8 8 fuel denseTen 10 twoCellGrid,
            (some [] : Option (List (ℕ × GridE))) with
          | some a, some b => some (a ++ b)
          | _, _ => none := rfl
    rw [hstep, ih]

/-- **C3.** Every bucket the recursion passes to the process callback does
    satisfy both caps (`splatCount ≤ maxSplats` and every subgrid side
    `≤ maxCells`), because emission is guarded by exactly that test.  The
    error half of the claim fails: bucket.cpp contains no throw of the
    documented `DensityError`; on an input where a forced-leaf microblock
    intersects more than `maxSplats` splats (ten coincident splats on a
    one-cell grid with `maxSplats = 5`) the recursion re-picks the whole
    cell forever — for every recursion depth it neither emits a bucket
    nor raises an error. -/
theorem bucketRecurse_caps_noDensityError :
    (∀ (I : ℕ → BCell → GridE → Bool) (msp mc msl fuel : ℕ)
        (splats : List ℕ) (numSplats : ℕ) (grid : GridE) (out : List (ℕ × GridE)),
      bucketRecurse I msp mc msl fuel splats numSplats grid = some out →
      ∀ b ∈ out, b.1 ≤ msp ∧ gridMaxDim b.2 ≤ mc) ∧
    (∀ fuel : ℕ,
      bucketRecurse (fun _ _ _ => true) 5 8 8 fuel denseTen 10 oneCellGrid = none) := by
  constructor
  · intro I msp mc msl fuel
    induction fuel with
    | zero =>
      intro splats numSplats grid out h
      simp [bucketRecurse] at h
    | succ fuel ih =>
      intro splats numSplats grid out h b hb
      simp only [bucketRecurse] at h
      split at h
      next hguard =>
        simp only [Option.some_inj] at h
        subst h
        simp only [List.mem_singleton] at hb
        subst hb
        exact hguard
      next hguard =>
        exact bucketFoldr_caps I msp mc msl fuel ih _ out h b hb
  · intro fuel
    cases fuel with
    | zero => rfl
    | succ fuel =>
      have hstep : bucketRecurse (fun _ _ _ => true) 5 8 8 (fuel + 1) denseTen 10 oneCellGrid
          = match bucketRecurse (fun _ _ _ => true) 5 8 8 fuel denseTen 10 twoCellGrid,
              (some [] : Option (List (ℕ × GridE))) with
            | some a, some b => some (a ++ b)
            | _, _ => none := rfl
      rw [hstep, denseTwoCell_none fuel]

/-- Witness for C3: a one-splat input under both caps terminates in one
    step, emitting a single bucket that satisfies the caps. -/
theorem bucketRecurse_caps_witness :
    ∀ b ∈ [((1 : ℕ), oneCellGrid)], b.1 ≤ 5 ∧ gridMaxDim b.2 ≤ 8 :=
  bucketRecurse_caps_noDensityError.1 (fun _ _ _ => true) 5 8 8 1 [0] 1
    oneCellGrid [(1, oneCellGrid)] (by rfl)

end Mlsgpu
